import Mathlib

/-!
Verification of the core components of the venue-voice repository:
the URL normalizer / seen-store (src/backend/utils/seen_store.py and its
duplicate src/backend/utils/url_tracking.py) and the brand-guideline
checker (src/backend/newsletter_generator.py, check_brand_guidelines,
with rule data from src/config/brand_guidelines.py).

Python strings are modelled as `List Char` (Unicode scalar values; Python
strings containing lone surrogates are outside the model).  The pieces of
Python's standard library that the source calls (str.strip, str.lower,
urllib.parse.urlparse / urlunparse / parse_qsl / urlencode / quote_plus /
unquote, json values) are modelled faithfully at the character level for
the ASCII behaviour the source exercises; `str.lower` and `str.isalnum`
are modelled on ASCII (Python's full Unicode tables are out of scope, and
none of the claims depends on non-ASCII case mapping).  urllib is modelled
after the CPython 3.10/3.11 implementation: urlsplit strips leading
C0-control/space characters, removes tab/CR/LF everywhere, splits the
scheme at the first ':' when the prefix is a valid scheme, parses the
netloc after '//' up to the first of '/', '?', '#' (raising on a
mismatched '[' / ']' bracket pair, which the source catches), then splits
the fragment at the first '#' and the query at the first '?'.  Percent
encoding and decoding go through UTF-8 bytes exactly as in
urllib.parse.quote / unquote.
-/

set_option maxRecDepth 40000

namespace VenueVoice

/-! ### Basic Python string primitives over `List Char` -/

/-- Python whitespace for `str.strip()` (ASCII part: space, tab, LF, CR,
vertical tab, form feed). -/
def pyWsChar (c : Char) : Bool :=
  c = ' ' || c = '\t' || c = '\n' || c = '\r' || c = Char.ofNat 11 || c = Char.ofNat 12

/-- Python `str.strip()` with no arguments (ASCII model). -/
def pyStrip (s : List Char) : List Char :=
  ((s.dropWhile pyWsChar).reverse.dropWhile pyWsChar).reverse

/-- Python `str.lower()` on one character (ASCII model: A-Z to a-z,
everything else unchanged). -/
def pyLowerChar (c : Char) : Char :=
  if 65 ≤ c.toNat ∧ c.toNat ≤ 90 then Char.ofNat (c.toNat + 32) else c

/-- Python `str.lower()` (ASCII model). -/
def pyLower (s : List Char) : List Char := s.map pyLowerChar

/-- Python's `needle in haystack` contiguous-substring test. -/
def occursIn (needle : List Char) : List Char → Bool
  | [] => needle.isEmpty
  | c :: rest => needle.isPrefixOf (c :: rest) || occursIn needle rest

/-- Split a list at the first occurrence of character `c`:
`some (before, after)` with the separator removed, or `none` if absent. -/
def splitAtFirstChar (c : Char) : List Char → Option (List Char × List Char)
  | [] => none
  | x :: xs =>
    if x = c then some ([], xs)
    else
      match splitAtFirstChar c xs with
      | none => none
      | some (a, b) => some (x :: a, b)

/-- Python `s.split(sep, 1)` followed by defaulting: returns `(s, [])`
when the separator is absent (this is how urlsplit uses
`if sep in url: url, rest = url.split(sep, 1)`). -/
def pySplitOnce (c : Char) (s : List Char) : List Char × List Char :=
  match splitAtFirstChar c s with
  | none => (s, [])
  | some p => p

/-- Structure of a successful first-character split: the input is the
prefix, the separator, then the suffix, and the prefix avoids the
separator. -/
theorem splitAtFirstChar_eq {c : Char} {s a b : List Char}
    (h : splitAtFirstChar c s = some (a, b)) : s = a ++ c :: b ∧ c ∉ a := by
  induction s generalizing a b with
  | nil => simp [splitAtFirstChar] at h
  | cons x xs ih =>
    by_cases hx : x = c
    · subst hx
      simp only [splitAtFirstChar, if_pos rfl, Option.some.injEq, Prod.mk.injEq] at h
      rcases h with ⟨rfl, rfl⟩
      simp
    · simp only [splitAtFirstChar, if_neg hx] at h
      cases h2 : splitAtFirstChar c xs with
      | none => rw [h2] at h; simp at h
      | some p =>
        obtain ⟨p1, p2⟩ := p
        rw [h2] at h
        simp only [Option.some.injEq, Prod.mk.injEq] at h
        obtain ⟨ha, hb⟩ := h
        subst hb
        obtain ⟨h3, h4⟩ := ih h2
        subst ha
        constructor
        · rw [h3]; simp
        · simp only [List.mem_cons, not_or]
          exact ⟨fun hcc => hx hcc.symm, h4⟩

/-- Full Python `s.split(sep)` (on a nonempty string). -/
def pySplitAll (c : Char) (s : List Char) : List (List Char) :=
  match h : splitAtFirstChar c s with
  | none => [s]
  | some (a, b) => a :: pySplitAll c b
termination_by s.length
decreasing_by
  have hs := (splitAtFirstChar_eq h).1
  subst hs
  simp
  omega

/-! ### UTF-8 encoding and decoding (for urllib percent coding) -/

/-- UTF-8 bytes of one Unicode scalar value. -/
def utf8EncodeChar (c : Char) : List Nat :=
  let n := c.toNat
  if n < 128 then [n]
  else if n < 2048 then [192 + n / 64, 128 + n % 64]
  else if n < 65536 then [224 + n / 4096, 128 + (n / 64) % 64, 128 + n % 64]
  else [240 + n / 262144, 128 + (n / 4096) % 64, 128 + (n / 64) % 64, 128 + n % 64]

/-- UTF-8 bytes of a string. -/
def utf8EncodeList (s : List Char) : List Nat := s.flatMap utf8EncodeChar

/-- U+FFFD, produced by Python's errors='replace' decoding. -/
def replChar : Char := Char.ofNat 0xFFFD

/-- Second-byte constraint of a 3-byte UTF-8 sequence led by `b`
(excluding overlong forms and surrogates, as CPython does). -/
def utf8Cont2Ok (b b2 : Nat) : Prop :=
  if b = 224 then 160 ≤ b2 ∧ b2 ≤ 191
  else if b = 237 then 128 ≤ b2 ∧ b2 ≤ 159
  else 128 ≤ b2 ∧ b2 ≤ 191

instance (b b2 : Nat) : Decidable (utf8Cont2Ok b b2) := by
  unfold utf8Cont2Ok
  infer_instance

/-- Second-byte constraint of a 4-byte UTF-8 sequence led by `b`. -/
def utf8Cont3Ok (b b2 : Nat) : Prop :=
  if b = 240 then 144 ≤ b2 ∧ b2 ≤ 191
  else if b = 244 then 128 ≤ b2 ∧ b2 ≤ 143
  else 128 ≤ b2 ∧ b2 ≤ 191

instance (b b2 : Nat) : Decidable (utf8Cont3Ok b b2) := by
  unfold utf8Cont3Ok
  infer_instance

mutual

/-- UTF-8 decoding with errors='replace' (as in `bytes.decode('utf-8',
'replace')`): invalid leading bytes and invalid continuations consume the
maximal valid subpart and yield U+FFFD, mirroring CPython.  The helper
functions handle the continuation bytes of 2/3/4-byte sequences. -/
def utf8DecodeBytes : List Nat → List Char
  | [] => []
  | b :: bs =>
    if b < 128 then Char.ofNat b :: utf8DecodeBytes bs
    else if 194 ≤ b ∧ b ≤ 223 then utf8Dec2 b bs
    else if 224 ≤ b ∧ b ≤ 239 then utf8Dec3 b bs
    else if 240 ≤ b ∧ b ≤ 244 then utf8Dec4 b bs
    else replChar :: utf8DecodeBytes bs
termination_by l => (l.length, 0)

def utf8Dec2 (b : Nat) : List Nat → List Char
  | [] => [replChar]
  | b2 :: bs2 =>
    if 128 ≤ b2 ∧ b2 ≤ 191 then
      Char.ofNat ((b - 192) * 64 + (b2 - 128)) :: utf8DecodeBytes bs2
    else replChar :: utf8DecodeBytes (b2 :: bs2)
termination_by l => (l.length, 1)

def utf8Dec3 (b : Nat) : List Nat → List Char
  | [] => [replChar]
  | b2 :: bs2 =>
    if utf8Cont2Ok b b2 then utf8Dec3b b b2 bs2
    else replChar :: utf8DecodeBytes (b2 :: bs2)
termination_by l => (l.length, 2)

def utf8Dec3b (b b2 : Nat) : List Nat → List Char
  | [] => [replChar]
  | b3 :: bs3 =>
    if 128 ≤ b3 ∧ b3 ≤ 191 then
      Char.ofNat ((b - 224) * 4096 + (b2 - 128) * 64 + (b3 - 128)) :: utf8DecodeBytes bs3
    else replChar :: utf8DecodeBytes (b3 :: bs3)
termination_by l => (l.length, 1)

def utf8Dec4 (b : Nat) : List Nat → List Char
  | [] => [replChar]
  | b2 :: bs2 =>
    if utf8Cont3Ok b b2 then utf8Dec4b b b2 bs2
    else replChar :: utf8DecodeBytes (b2 :: bs2)
termination_by l => (l.length, 3)

def utf8Dec4b (b b2 : Nat) : List Nat → List Char
  | [] => [replChar]
  | b3 :: bs3 =>
    if 128 ≤ b3 ∧ b3 ≤ 191 then utf8Dec4c b b2 b3 bs3
    else replChar :: utf8DecodeBytes (b3 :: bs3)
termination_by l => (l.length, 2)

def utf8Dec4c (b b2 b3 : Nat) : List Nat → List Char
  | [] => [replChar]
  | b4 :: bs4 =>
    if 128 ≤ b4 ∧ b4 ≤ 191 then
      Char.ofNat ((b - 240) * 262144 + (b2 - 128) * 4096 +
        (b3 - 128) * 64 + (b4 - 128)) :: utf8DecodeBytes bs4
    else replChar :: utf8DecodeBytes (b4 :: bs4)
termination_by l => (l.length, 1)

end

/-! ### urllib.parse.quote / unquote / parse_qsl / urlencode -/

/-- urllib's `_ALWAYS_SAFE` byte set: ASCII letters, digits, `_.-~`. -/
def alwaysSafeByte (b : Nat) : Bool :=
  (65 ≤ b && b ≤ 90) || (97 ≤ b && b ≤ 122) || (48 ≤ b && b ≤ 57) ||
  b = 95 || b = 46 || b = 45 || b = 126

/-- Uppercase hex digits, as produced by urllib's percent encoder. -/
def hexDigitOf (n : Nat) : Char := (("0123456789ABCDEF").data).getD n 'X'

/-- Quote one byte: kept literal when safe, otherwise percent encoded. -/
def quoteByte (safe : List Nat) (b : Nat) : List Char :=
  if alwaysSafeByte b || safe.contains b then [Char.ofNat b]
  else ['%', hexDigitOf (b / 16), hexDigitOf (b % 16)]

/-- urllib.parse.quote (over UTF-8 bytes, with the given extra safe
bytes; urlencode calls it with safe=''). -/
def quoteStr (safe : List Nat) (s : List Char) : List Char :=
  (utf8EncodeList s).flatMap (quoteByte safe)

/-- urllib.parse.quote_plus with safe='': when the string contains a
space, quote with space safe and then replace spaces by '+'. -/
def quotePlus (s : List Char) : List Char :=
  if s.contains ' ' then (quoteStr [32] s).map (fun c => if c = ' ' then '+' else c)
  else quoteStr [] s

/-- Hex value of one character (both cases), as urllib's `_hextobyte`. -/
def hexVal (c : Char) : Option Nat :=
  if 48 ≤ c.toNat ∧ c.toNat ≤ 57 then some (c.toNat - 48)
  else if 65 ≤ c.toNat ∧ c.toNat ≤ 70 then some (c.toNat - 55)
  else if 97 ≤ c.toNat ∧ c.toNat ≤ 102 then some (c.toNat - 87)
  else none

mutual

/-- Tokenize a string for unquoting: `%XY` with two hex digits becomes
the byte `0x XY`; any other '%' and every literal ASCII character become
their byte; non-ASCII characters pass through (they lie outside
urllib's `_asciire` runs). -/
def unquoteTokens : List Char → List (Nat ⊕ Char)
  | [] => []
  | c :: rest =>
    if c = '%' then unquoteTokensPct rest
    else if c.toNat < 128 then Sum.inl c.toNat :: unquoteTokens rest
    else Sum.inr c :: unquoteTokens rest
termination_by l => (l.length, 0)

/-- What follows a '%' during unquote tokenization. -/
def unquoteTokensPct : List Char → List (Nat ⊕ Char)
  | a :: b :: rest2 =>
    match hexVal a, hexVal b with
    | some x, some y => Sum.inl (16 * x + y) :: unquoteTokens rest2
    | _, _ => Sum.inl 37 :: unquoteTokens (a :: b :: rest2)
  | [] => [Sum.inl 37]
  | [a] => Sum.inl 37 :: unquoteTokens [a]
termination_by l => (l.length, 1)

end

/-- Decode token runs: maximal byte runs (one `_asciire` run in urllib)
are UTF-8 decoded together with errors='replace'; pass-through
characters separate the runs. -/
def decodeRuns (acc : List Nat) : List (Nat ⊕ Char) → List Char
  | [] => utf8DecodeBytes acc.reverse
  | Sum.inl b :: ts => decodeRuns (b :: acc) ts
  | Sum.inr c :: ts => utf8DecodeBytes acc.reverse ++ c :: decodeRuns [] ts

/-- urllib.parse.unquote with encoding='utf-8', errors='replace'. -/
def pyUnquote (s : List Char) : List Char := decodeRuns [] (unquoteTokens s)

/-- The `.replace('+', ' ')` step of parse_qsl. -/
def plusToSpace (s : List Char) : List Char :=
  s.map (fun c => if c = '+' then ' ' else c)

/-- urllib.parse.parse_qsl with keep_blank_values=True: split the query
on '&', skip empty chunks, split each chunk at the first '=' (a chunk
without '=' keeps a blank value), replace '+' by space and unquote both
name and value. -/
def parse_qsl (qs : List Char) : List (List Char × List Char) :=
  let chunks := if qs = [] then [] else pySplitAll '&' qs
  chunks.filterMap fun nv =>
    if nv = [] then none
    else
      let p :=
        match splitAtFirstChar '=' nv with
        | some ab => ab
        | none => (nv, [])
      some (pyUnquote (plusToSpace p.1), pyUnquote (plusToSpace p.2))

/-- urllib.parse.urlencode with doseq=True over string pairs (which for
string values coincides with the plain loop): quote_plus each side and
join with '=' and '&'. -/
def urlencode (q : List (List Char × List Char)) : List Char :=
  List.intercalate ['&'] (q.map fun kv => quotePlus kv.1 ++ '=' :: quotePlus kv.2)

/-! ### urllib.parse.urlsplit / urlparse / urlunsplit / urlunparse -/

/-- urllib's `scheme_chars`: ASCII letters, digits and `+-.`. -/
def schemeChar (c : Char) : Bool :=
  c.isAlpha || c.isDigit || c = '+' || c = '-' || c = '.'

/-- A valid scheme prefix before ':': nonempty, first character an ASCII
letter, every character a scheme character. -/
def validScheme (pre : List Char) : Bool :=
  match pre with
  | [] => false
  | c :: rest => c.isAlpha && (c :: rest).all schemeChar

/-- Characters that end the netloc in `_splitnetloc`. -/
def netlocEnd (c : Char) : Bool := c = '/' || c = '?' || c = '#'

/-- WHATWG C0-control-or-space set that urlsplit lstrips. -/
def c0OrSpace (c : Char) : Bool := c.toNat ≤ 32

/-- The unsafe bytes urlsplit removes everywhere: tab, CR, LF. -/
def tabCrLf (c : Char) : Bool := c = '\t' || c = '\r' || c = '\n'

/-- Scheme detection of urlsplit: split at the first ':' and accept the
prefix when it is a valid scheme (lowercasing it), else leave the URL
untouched. -/
def schemeSplit (url : List Char) : List Char × List Char :=
  match splitAtFirstChar ':' url with
  | none => ([], url)
  | some (pre, post) => if validScheme pre then (pyLower pre, post) else ([], url)

structure UrlSplitRes where
  scheme : List Char
  netloc : List Char
  path : List Char
  query : List Char
  fragment : List Char
deriving DecidableEq, Repr

/-- The input cleanup at the top of urlsplit: lstrip C0 controls and
spaces, remove tab/CR/LF everywhere. -/
def urlsplitClean (url0 : List Char) : List Char :=
  (url0.dropWhile c0OrSpace).filter (fun c => !tabCrLf c)

/-- The `_splitnetloc` stage: when the remainder starts with '//', the
netloc runs up to the first of '/', '?', '#'. -/
def netlocSplit (rest : List Char) : List Char × List Char :=
  if rest.take 2 = ['/', '/'] then
    ((rest.drop 2).takeWhile (fun c => !netlocEnd c),
     (rest.drop 2).dropWhile (fun c => !netlocEnd c))
  else ([], rest)

/-- The stages of urlsplit after the netloc has been separated: the
mismatched-bracket ValueError (modelled as `Except.error`), then the
fragment split at the first '#' and the query split at the first '?'. -/
def urlsplitAfterNetloc (scheme : List Char) (nl : List Char × List Char) :
    Except Unit UrlSplitRes :=
  if nl.1.contains '[' != nl.1.contains ']' then Except.error ()
  else
    Except.ok ⟨scheme, nl.1,
      (pySplitOnce '?' (pySplitOnce '#' nl.2).1).1,
      (pySplitOnce '?' (pySplitOnce '#' nl.2).1).2,
      (pySplitOnce '#' nl.2).2⟩

/-- urllib.parse.urlsplit (CPython 3.11.6 behaviour, ASCII model):
cleanup, scheme split, netloc split, bracket check, fragment and query
splits.  The 3.11-only bracketed-host validation (a full IP-address
parser) and the NFKC netloc check (which only raises on exotic
non-ASCII input) are not modelled; on those inputs this model parses
where CPython 3.11 raises (as CPython 3.10 did). -/
def urlsplitE (url0 : List Char) : Except Unit UrlSplitRes :=
  urlsplitAfterNetloc (schemeSplit (urlsplitClean url0)).1
    (netlocSplit (schemeSplit (urlsplitClean url0)).2)

/-- `_splitparams`: split path parameters at the first ';' in the last
path segment (or anywhere when the path has no '/'). -/
def splitparams (url : List Char) : List Char × List Char :=
  if '/' ∈ url then
    match splitAtFirstChar ';' (url.reverse.takeWhile (fun c => c ≠ '/')).reverse with
    | none => (url, [])
    | some (a, b) => ((url.reverse.dropWhile (fun c => c ≠ '/')).reverse ++ a, b)
  else
    match splitAtFirstChar ';' url with
    | none => (url, [])
    | some (a, b) => (a, b)

structure UrlParseRes where
  scheme : List Char
  netloc : List Char
  path : List Char
  params : List Char
  query : List Char
  fragment : List Char
deriving DecidableEq, Repr

/-- urllib.parse.urlparse: urlsplit plus parameter splitting. -/
def urlparseE (url : List Char) : Except Unit UrlParseRes :=
  match urlsplitE url with
  | Except.error e => Except.error e
  | Except.ok r =>
    Except.ok ⟨r.scheme, r.netloc,
      (if ';' ∈ r.path then splitparams r.path else (r.path, [])).1,
      (if ';' ∈ r.path then splitparams r.path else (r.path, [])).2,
      r.query, r.fragment⟩

/-- urllib's `uses_netloc` scheme list (CPython 3.11.6). -/
def uses_netloc : List (List Char) :=
  [[], ("ftp").data, ("http").data, ("gopher").data, ("nntp").data,
   ("telnet").data, ("imap").data, ("wais").data, ("file").data,
   ("mms").data, ("https").data, ("shttp").data, ("snews").data,
   ("prospero").data, ("rtsp").data, ("rtsps").data, ("rtspu").data,
   ("rsync").data, ("svn").data, ("svn+ssh").data, ("sftp").data,
   ("nfs").data, ("git").data, ("git+ssh").data, ("ws").data,
   ("wss").data]

/-- urllib.parse.urlunsplit (CPython 3.11.6): the '//' netloc marker is
emitted when the netloc is nonempty, or when the scheme is a known
netloc-using scheme and the path does not already begin with '//'. -/
def urlunsplit (scheme netloc url query fragment : List Char) : List Char :=
  let url1 :=
    if netloc ≠ [] ∨ (scheme ≠ [] ∧ uses_netloc.contains scheme ∧ url.take 2 ≠ ['/', '/']) then
      '/' :: '/' :: (netloc ++ (if url ≠ [] ∧ url.take 1 ≠ ['/'] then '/' :: url else url))
    else url
  let url2 := if scheme ≠ [] then scheme ++ ':' :: url1 else url1
  let url3 := if query ≠ [] then url2 ++ '?' :: query else url2
  if fragment ≠ [] then url3 ++ '#' :: fragment else url3

/-- urllib.parse.urlunparse. -/
def urlunparse (scheme netloc path params query fragment : List Char) : List Char :=
  urlunsplit scheme netloc (if params ≠ [] then path ++ ';' :: params else path) query fragment

/-- Reattach path parameters as urlunparse does. -/
def recombineParams (p m : List Char) : List Char :=
  if m = [] then p else p ++ ';' :: m

/-- Facts that every `splitparams` output satisfies: no '/' in the
parameters, and the path's last segment (everything, if it has no '/')
holds no ';'. -/
def SPGood (p m : List Char) : Prop :=
  '/' ∉ m ∧
  ('/' ∈ p → ∃ pr a, p = pr ++ '/' :: a ∧ '/' ∉ a ∧ ';' ∉ a) ∧
  ('/' ∉ p → ';' ∉ p)

/-! ### normalize_url and the seen store
(src/backend/utils/seen_store.py; url_tracking.py duplicates the same
logic with an identical tracking-key set). -/

/-- `TRACKING_KEYS` from seen_store.py (url_tracking.py inlines the same
set). -/
def TRACKING_KEYS : List (List Char) :=
  [("utm_source").data, ("utm_medium").data, ("utm_campaign").data,
   ("utm_term").data, ("utm_content").data,
   ("gclid").data, ("fbclid").data, ("mc_cid").data, ("mc_eid").data,
   ("mkt_tok").data]

/-- The tracking-key filter applied to the parsed query pairs. -/
def filterTracking (q : List (List Char × List Char)) : List (List Char × List Char) :=
  q.filter (fun kv => !(TRACKING_KEYS.contains (pyLower kv.1)))

/-- The reassembly normalize_url performs on a successful parse:
lowercase scheme (defaulting to https) and netloc, default the path to
'/', drop tracking query parameters, re-encode the query, reassemble
with the fragment dropped. -/
def normalizeFromParts (p : UrlParseRes) : List Char :=
  urlunparse
    (pyLower (if p.scheme = [] then ("https").data else p.scheme))
    (pyLower p.netloc)
    (if p.path = [] then ['/'] else p.path)
    p.params
    (urlencode (filterTracking (parse_qsl p.query)))
    []

/-- `normalize_url` (seen_store.py lines 23-42): empty input maps to
the empty string; otherwise strip, urlparse (a parse error returns the
stripped input unchanged), and reassemble the normalized parts. -/
def normalize_url (url : List Char) : List Char :=
  if url = [] then []
  else
    match urlparseE (pyStrip url) with
    | Except.error _ => pyStrip url
    | Except.ok p => normalizeFromParts p

/-- The inputs on which reassembly changes the parse: an empty netloc
together with a reassembled path starting with '//' makes the
reassembled URL re-parse with a netloc (CPython collapses
'https:////x' to 'https://x' on the second pass). -/
def collapsesDoubleSlash (url : List Char) : Bool :=
  match urlparseE (pyStrip url) with
  | Except.error _ => false
  | Except.ok p =>
    p.netloc.isEmpty &&
      decide ((recombineParams (if p.path = [] then ['/'] else p.path) p.params).take 2
        = ['/', '/'])

/-! ### JSON values and the persisted seen store
(seen_store.py load_seen/save_seen/append_seen; url_tracking.py
load_seen_urls/save_seen_urls are the same logic). -/

/-- Values that `json.load` can produce.  `pyStr`/`pyRepr` below model
Python's `str()`/`repr()` on them; container and string-escape rendering
is simplified (the claims only rely on string values rendering to
themselves and on truthy values rendering nonempty). -/
inductive PyJson where
  | str (s : List Char)
  | num (n : Int)
  | bool (b : Bool)
  | null
  | list (xs : List PyJson)
  | dict (kvs : List (List Char × PyJson))

/-- Python truthiness of a JSON value. -/
def pyTruthy : PyJson → Bool
  | PyJson.str s => !s.isEmpty
  | PyJson.num n => decide (n ≠ 0)
  | PyJson.bool b => b
  | PyJson.null => false
  | PyJson.list xs => !xs.isEmpty
  | PyJson.dict kvs => !kvs.isEmpty

/-- Decimal digits of a natural number. -/
def natDigitsRepr (n : Nat) : List Char :=
  if n < 10 then [Char.ofNat (48 + n)]
  else natDigitsRepr (n / 10) ++ [Char.ofNat (48 + n % 10)]
termination_by n
decreasing_by omega

/-- Python `str` of an int. -/
def pyIntRepr (n : Int) : List Char :=
  if n < 0 then '-' :: natDigitsRepr n.natAbs else natDigitsRepr n.toNat

/-- The apostrophe character (used by Python repr and by the checker's
message strings). -/
def apos : Char := Char.ofNat 39

mutual

/-- Python `repr()` of a JSON value (string escaping simplified). -/
def pyReprJson : PyJson → List Char
  | PyJson.str s => apos :: (s ++ [apos])
  | PyJson.num n => pyIntRepr n
  | PyJson.bool b => if b then ("True").data else ("False").data
  | PyJson.null => ("None").data
  | PyJson.list xs => '[' :: (pyReprJsonList xs ++ [']'])
  | PyJson.dict kvs => Char.ofNat 123 :: (pyReprJsonDict kvs ++ [Char.ofNat 125])

def pyReprJsonList : List PyJson → List Char
  | [] => []
  | [x] => pyReprJson x
  | x :: y :: rest => pyReprJson x ++ ',' :: ' ' :: pyReprJsonList (y :: rest)

def pyReprJsonDict : List (List Char × PyJson) → List Char
  | [] => []
  | [kv] => apos :: (kv.1 ++ apos :: ':' :: ' ' :: pyReprJson kv.2)
  | kv :: kv2 :: rest =>
    apos :: (kv.1 ++ apos :: ':' :: ' ' :: pyReprJson kv.2) ++
      ',' :: ' ' :: pyReprJsonDict (kv2 :: rest)

end

/-- Python `str()` of a JSON value. -/
def pyStr : PyJson → List Char
  | PyJson.str s => s
  | j => pyReprJson j

/-- The persisted state backing one category of the seen store: the
file may be absent, unreadable/unparseable, or hold a parsed JSON
value. -/
inductive StoredState where
  | missing
  | unreadable
  | value (j : PyJson)

/-- `load_seen` (seen_store.py lines 52-72; load_seen_urls in
url_tracking.py lines 45-66 is identical): a missing file or any
read/parse failure yields `[]`; a parsed value that is not a list
yields `[]`; otherwise falsy entries are dropped and every remaining
entry is rendered with `str` and normalized. -/
def load_seen : StoredState → List (List Char)
  | StoredState.missing => []
  | StoredState.unreadable => []
  | StoredState.value (PyJson.list xs) =>
    (xs.filter pyTruthy).map (fun x => normalize_url (pyStr x))
  | StoredState.value _ => []

/-- The dedup loop of `save_seen` (seen_store.py lines 84-90): normalize
each url, drop empty normalizations and repeats, keep first-occurrence
order.  `seen` is the set of already-kept values. -/
def saveSeenDedup (seen : List (List Char)) : List (List Char) → List (List Char)
  | [] => []
  | u :: us =>
    let nu := normalize_url u
    if nu ≠ [] ∧ nu ∉ seen then nu :: saveSeenDedup (nu :: seen) us
    else saveSeenDedup seen us

/-- The list that `save_seen(section, urls)` persists. -/
def save_seen_list (urls : List (List Char)) : List (List Char) :=
  saveSeenDedup [] urls

/-- The stored state after `save_seen(section, urls)` (the JSON file
holds exactly the deduplicated list of strings). -/
def saveStore (urls : List (List Char)) : StoredState :=
  StoredState.value (PyJson.list ((save_seen_list urls).map PyJson.str))

/-- `append_seen` (seen_store.py lines 95-104): load the previous list
and save the new urls in front of it. -/
def append_seen (st : StoredState) (new_urls : List (List Char)) : StoredState :=
  saveStore (new_urls ++ load_seen st)

/-- ASCII model of Python `str.isalnum` (the category names the code
uses are ASCII). -/
def pyIsAlnumChar (c : Char) : Bool := c.isAlpha || c.isDigit

/-- The sanitizer inside `_file_for` (seen_store.py line 48): lowercase,
then keep only alphanumerics, underscore and hyphen. -/
def sanitizeSection (sect : List Char) : List Char :=
  (pyLower sect).filter (fun c => pyIsAlnumChar c || c = '_' || c = '-')

/-- The file name `_file_for` builds inside the data directory
(seen_store.py line 49). -/
def seenFileName (sect : List Char) : List Char :=
  ("seen_").data ++ sanitizeSection sect ++ (".json").data

/-- The file name `seen_file_path` builds in url_tracking.py line 42 —
note: no sanitization there. -/
def utSeenFileName (section_key : List Char) : List Char :=
  ("seen_").data ++ section_key ++ (".json").data

/-! ### The brand guideline checker
(newsletter_generator.py, check_brand_guidelines, lines 179-276, with
rule data transcribed from config/brand_guidelines.py). -/

/-- `BRAND_GUIDELINES['briteco_brand']['forbidden_terms']`
(brand_guidelines.py lines 94-100). -/
def FORBIDDEN_TERMS : List (List Char) :=
  [("insurance company").data, ("specialized jewelry insurance").data,
   ("AM Best policies").data, ("we are AM Best").data,
   ("www.brite.co").data]

/-- The gendered-term list hardcoded in check_brand_guidelines
(newsletter_generator.py line 209). -/
def GENDERED_TERMS : List (List Char) :=
  [("bride and groom").data, ("bridal party").data, ("groomsmen").data,
   ("bridesmaid").data]

/-- `BRAND_GUIDELINES['tone']['wedding_insurance']['corrections']`
(brand_guidelines.py lines 119-125). -/
def TONE_CORRECTIONS : List (List Char × List Char) :=
  [(("bridal party").data, ("wedding party").data),
   (("groomsmen").data, ("groom crew").data),
   (("bride and groom").data, ("partner").data),
   (("bride").data, ("partner").data),
   (("groom").data, ("partner").data)]

/-- Python `dict.get(key, default)` over an association list. -/
def dictGetD (d : List (List Char × List Char)) (key dflt : List Char) : List Char :=
  match d.find? (fun kv => kv.1 == key) with
  | some kv => kv.2
  | none => dflt

/-- `\w` of Python re (ASCII model). -/
def wordChar (c : Char) : Bool := c.isAlpha || c.isDigit || c = '_'

/-- `\s` of Python re (ASCII model). -/
def reSpaceChar (c : Char) : Bool :=
  c = ' ' || c = '\t' || c = '\n' || c = '\r' || c = Char.ofNat 11 || c = Char.ofNat 12

/-- Match of the serial-comma pattern `\w+,\s+\w+\s+and\s+\w+`
anchored at the start of `s`.  Every quantified class is followed by a
disjoint class or literal, so greedy maximal munch is equivalent to the
regex search. -/
def serialCommaAt (s : List Char) : Bool :=
  if s.takeWhile wordChar = [] then false
  else
    match s.dropWhile wordChar with
    | ',' :: r2 =>
      if r2.takeWhile reSpaceChar = [] then false
      else
        let r3 := r2.dropWhile reSpaceChar
        if r3.takeWhile wordChar = [] then false
        else
          let r4 := r3.dropWhile wordChar
          if r4.takeWhile reSpaceChar = [] then false
          else
            match r4.dropWhile reSpaceChar with
            | 'a' :: 'n' :: 'd' :: r6 =>
              if r6.takeWhile reSpaceChar = [] then false
              else !(r6.dropWhile reSpaceChar).takeWhile wordChar = []
            | _ => false
    | _ => false

/-- `re.findall(r'\w+,\s+\w+\s+and\s+\w+', text)` is nonempty iff the
pattern matches at some position. -/
def hasSerialComma (s : List Char) : Bool :=
  s.tails.any serialCommaAt

structure Violation where
  severity : List Char
  rule : List Char
  issue : List Char
  suggestion : List Char
deriving DecidableEq, Repr

structure CheckReport where
  passed : Bool
  total_issues : Nat
  total_warnings : Nat
  issues : List Violation
  warnings : List Violation
  checked_at : List Char
deriving DecidableEq, Repr

/-- The forbidden-term Violation (newsletter_generator.py lines
201-206).  Note the suggestion is the fixed string, not a lookup. -/
def forbiddenViolation (term : List Char) : Violation :=
  { severity := ("error").data
    rule := ("BriteCo Brand").data
    issue := ("Forbidden term found: ").data ++ apos :: (term ++ [apos])
    suggestion := ("Use approved terminology instead").data }

/-- The gendered-language Violation (lines 211-219); the suggestion is
looked up in the tone corrections. -/
def genderedViolation (term : List Char) : Violation :=
  { severity := ("warning").data
    rule := ("Inclusive Language").data
    issue := ("Gendered term found: ").data ++ apos :: (term ++ [apos])
    suggestion := ("Consider using: ").data ++
      dictGetD TONE_CORRECTIONS term (("Use gender-neutral language").data) }

/-- The serial-comma warning (lines 224-231). -/
def serialCommaWarning : Violation :=
  { severity := ("warning").data
    rule := ("Punctuation").data
    issue := ("Possible missing serial comma").data
    suggestion := ("Use serial commas in lists: ").data ++
      apos :: (("a, b, and c").data ++ [apos]) }

/-- The www.brite.co error (lines 234-240). -/
def wwwViolation : Violation :=
  { severity := ("error").data
    rule := ("BriteCo Brand").data
    issue := ("Incorrect website reference: www.brite.co").data
    suggestion := ("Use brite.co or https://brite.co").data }

/-- The lab-grown hyphenation error (lines 242-249). -/
def labViolation : Violation :=
  { severity := ("error").data
    rule := ("Punctuation").data
    issue := apos :: (("lab grown").data ++ apos :: (" should be hyphenated").data)
    suggestion := ("Use ").data ++ apos :: (("lab-grown").data ++ [apos]) }

/-- `" ".join([str(v) for v in content.values() if isinstance(v, str)])`
(line 195): the string-valued fields of the content dict, joined with
spaces, in dict order. -/
def allText (values : List PyJson) : List Char :=
  List.intercalate [' ']
    (values.filterMap (fun v =>
      match v with
      | PyJson.str s => some s
      | _ => none))

/-- `check_brand_guidelines` (newsletter_generator.py lines 179-260).
The content dict is represented by the list of its values in dict
order; `now` is the `datetime.now().isoformat()` timestamp that the
function embeds as `checked_at`.  Printing (lines 262-274) is a side
effect outside the returned value and is not modelled. -/
def check_brand_guidelines (values : List PyJson) (now : List Char) : CheckReport :=
  let all_text := allText values
  let lowText := pyLower all_text
  let issues1 := (FORBIDDEN_TERMS.filter
    (fun t => occursIn (pyLower t) lowText)).map forbiddenViolation
  let warnings1 := (GENDERED_TERMS.filter
    (fun t => occursIn (pyLower t) lowText)).map genderedViolation
  let warnings2 := if hasSerialComma all_text then [serialCommaWarning] else []
  let issues2 := if occursIn (("www.brite.co").data) all_text then [wwwViolation] else []
  let issues3 :=
    if occursIn (("lab grown").data) lowText && !occursIn (("lab-grown").data) all_text then
      [labViolation]
    else []
  let issues := issues1 ++ issues2 ++ issues3
  let warnings := warnings1 ++ warnings2
  { passed := issues.length == 0
    total_issues := issues.length
    total_warnings := warnings.length
    issues := issues
    warnings := warnings
    checked_at := now }

/-! ### Helper lemmas: characters and string primitives -/

theorem char_toNat_ofNat {n : Nat} (h : n.isValidChar) : (Char.ofNat n).toNat = n := by
  simp only [Char.ofNat, h, dif_pos, Char.ofNatAux, Char.toNat]
  rfl

theorem char_toNat_inj {c d : Char} (h : c.toNat = d.toNat) : c = d := by
  have := congrArg Char.ofNat h
  rwa [Char.ofNat_toNat, Char.ofNat_toNat] at this

theorem char_valid_nat (c : Char) :
    c.toNat < 55296 ∨ (57343 < c.toNat ∧ c.toNat < 1114112) := c.valid

theorem char_toNat_lt (c : Char) : c.toNat < 1114112 := by
  rcases char_valid_nat c with h | h <;> omega

theorem pyLowerChar_idem (c : Char) : pyLowerChar (pyLowerChar c) = pyLowerChar c := by
  unfold pyLowerChar
  by_cases h : 65 ≤ c.toNat ∧ c.toNat ≤ 90
  · rw [if_pos h]
    have hv : (c.toNat + 32).isValidChar := by
      unfold Nat.isValidChar
      omega
    rw [if_neg]
    rw [char_toNat_ofNat hv]
    omega
  · rw [if_neg h, if_neg h]

theorem pyLower_idem (s : List Char) : pyLower (pyLower s) = pyLower s := by
  unfold pyLower
  rw [List.map_map]
  exact List.map_congr_left (fun c _ => pyLowerChar_idem c)

/-- When the target character is not an ASCII letter, lowering maps a
character to it only if the character already is it. -/
theorem pyLowerChar_eq_iff {c t : Char}
    (ht : ¬(97 ≤ t.toNat ∧ t.toNat ≤ 122) ∧ ¬(65 ≤ t.toNat ∧ t.toNat ≤ 90)) :
    pyLowerChar c = t ↔ c = t := by
  unfold pyLowerChar
  by_cases h : 65 ≤ c.toNat ∧ c.toNat ≤ 90
  · rw [if_pos h]
    have hv : (c.toNat + 32).isValidChar := by
      unfold Nat.isValidChar
      omega
    constructor
    · intro he
      exfalso
      have := char_toNat_ofNat hv
      rw [he] at this
      omega
    · intro he
      subst he
      exact absurd h ht.2
  · rw [if_neg h]

theorem mem_pyLower_iff {t : Char}
    (ht : ¬(97 ≤ t.toNat ∧ t.toNat ≤ 122) ∧ ¬(65 ≤ t.toNat ∧ t.toNat ≤ 90)) (s : List Char) :
    t ∈ pyLower s ↔ t ∈ s := by
  unfold pyLower
  rw [List.mem_map]
  constructor
  · rintro ⟨c, hc, he⟩
    rwa [(pyLowerChar_eq_iff ht).mp he] at hc
  · intro hm
    exact ⟨t, hm, (pyLowerChar_eq_iff ht).mpr rfl⟩

theorem pyLower_eq_nil_iff (s : List Char) : pyLower s = [] ↔ s = [] := by
  unfold pyLower
  simp

theorem dropWhile_head_not {p : Char → Bool} {l : List Char} {x : Char} {xs : List Char}
    (h : l.dropWhile p = x :: xs) : ¬ p x := by
  induction l with
  | nil => simp at h
  | cons y ys ih =>
    rw [List.dropWhile_cons] at h
    by_cases hy : p y
    · rw [if_pos hy] at h
      exact ih h
    · rw [if_neg hy] at h
      cases h
      exact hy

theorem dropWhile_idem (p : Char → Bool) (l : List Char) :
    (l.dropWhile p).dropWhile p = l.dropWhile p := by
  induction l with
  | nil => rfl
  | cons x xs ih =>
    rw [List.dropWhile_cons]
    by_cases h : p x
    · rw [if_pos h]
      exact ih
    · rw [if_neg h, List.dropWhile_cons, if_neg h]

theorem pyStrip_idem (s : List Char) : pyStrip (pyStrip s) = pyStrip s := by
  unfold pyStrip
  set A := s.dropWhile pyWsChar with hA
  set B := A.reverse.dropWhile pyWsChar with hB
  have hpre : B.reverse <+: A := by
    rw [show A = A.reverse.reverse by rw [List.reverse_reverse]]
    exact List.reverse_prefix.mpr (hB ▸ List.dropWhile_suffix pyWsChar)
  have step1 : B.reverse.dropWhile pyWsChar = B.reverse := by
    cases hBr : B.reverse with
    | nil => rfl
    | cons y ys =>
      obtain ⟨t, ht⟩ := hpre
      rw [hBr] at ht
      have hy : ¬ pyWsChar y := by
        apply @dropWhile_head_not pyWsChar s y (ys ++ t)
        rw [hA] at ht
        exact ht.symm
      rw [List.dropWhile_cons, if_neg hy]
  rw [step1, List.reverse_reverse, hB, dropWhile_idem]

theorem takeWhile_append_all {p : Char → Bool} {xs : List Char} (ys : List Char)
    (h : ∀ a ∈ xs, p a) : (xs ++ ys).takeWhile p = xs ++ ys.takeWhile p := by
  induction xs with
  | nil => simp
  | cons x xt ih =>
    rw [List.cons_append, List.takeWhile_cons, if_pos (h x (by simp))]
    rw [ih (fun a ha => h a (by simp [ha]))]
    rfl

theorem dropWhile_append_all {p : Char → Bool} {xs : List Char} (ys : List Char)
    (h : ∀ a ∈ xs, p a) : (xs ++ ys).dropWhile p = ys.dropWhile p := by
  induction xs with
  | nil => simp
  | cons x xt ih =>
    rw [List.cons_append, List.dropWhile_cons, if_pos (h x (by simp))]
    exact ih (fun a ha => h a (by simp [ha]))

theorem takeWhile_cons_neg {p : Char → Bool} {x : Char} (xs : List Char) (h : ¬ p x) :
    (x :: xs).takeWhile p = [] := by
  rw [List.takeWhile_cons, if_neg h]

theorem dropWhile_cons_neg {p : Char → Bool} {x : Char} (xs : List Char) (h : ¬ p x) :
    (x :: xs).dropWhile p = x :: xs := by
  rw [List.dropWhile_cons, if_neg h]

theorem splitAtFirstChar_none_iff {c : Char} {s : List Char} :
    splitAtFirstChar c s = none ↔ c ∉ s := by
  induction s with
  | nil => simp [splitAtFirstChar]
  | cons x xs ih =>
    simp only [splitAtFirstChar]
    by_cases hx : x = c
    · subst hx
      simp
    · rw [if_neg hx]
      cases h2 : splitAtFirstChar c xs with
      | none =>
        simp only [List.mem_cons, not_or]
        constructor
        · intro _
          exact ⟨fun he => hx he.symm, ih.mp h2⟩
        · intro _
          trivial
      | some p =>
        simp only [List.mem_cons, not_or]
        constructor
        · intro h
          simp at h
        · intro ⟨_, hm⟩
          exact absurd h2 (by rw [ih.symm] at hm; simp [hm])

theorem splitAtFirstChar_append {c : Char} {a : List Char} (b : List Char) (h : c ∉ a) :
    splitAtFirstChar c (a ++ c :: b) = some (a, b) := by
  induction a with
  | nil => simp [splitAtFirstChar]
  | cons x xs ih =>
    have hx : x ≠ c := by
      intro he
      exact h (by simp [he])
    simp only [List.cons_append, splitAtFirstChar, if_neg hx, List.append_eq]
    rw [ih (fun hm => h (by simp [hm]))]

theorem pySplitOnce_not_mem {c : Char} {s : List Char} (h : c ∉ s) :
    pySplitOnce c s = (s, []) := by
  unfold pySplitOnce
  rw [splitAtFirstChar_none_iff.mpr h]

theorem pySplitOnce_append {c : Char} {a : List Char} (b : List Char) (h : c ∉ a) :
    pySplitOnce c (a ++ c :: b) = (a, b) := by
  unfold pySplitOnce
  rw [splitAtFirstChar_append b h]

theorem pySplitOnce_fst_not_mem (c : Char) (s : List Char) : c ∉ (pySplitOnce c s).1 := by
  unfold pySplitOnce
  cases h : splitAtFirstChar c s with
  | none => exact splitAtFirstChar_none_iff.mp h
  | some p => exact (splitAtFirstChar_eq (by rw [h])).2

theorem pySplitOnce_mem_fst {c ch : Char} {s : List Char}
    (h : ch ∈ (pySplitOnce c s).1) : ch ∈ s := by
  unfold pySplitOnce at h
  cases h2 : splitAtFirstChar c s with
  | none => rwa [h2] at h
  | some p =>
    obtain ⟨a, b⟩ := p
    rw [h2] at h
    have h3 : ch ∈ a := h
    rw [(splitAtFirstChar_eq h2).1]
    simp [h3]

theorem pySplitOnce_mem_snd {c ch : Char} {s : List Char}
    (h : ch ∈ (pySplitOnce c s).2) : ch ∈ s := by
  unfold pySplitOnce at h
  cases h2 : splitAtFirstChar c s with
  | none =>
    rw [h2] at h
    simp at h
  | some p =>
    obtain ⟨a, b⟩ := p
    rw [h2] at h
    have h3 : ch ∈ b := h
    rw [(splitAtFirstChar_eq h2).1]
    simp [h3]

theorem pySplitOnce_fst_head {c : Char} {s : List Char}
    (hne : (pySplitOnce c s).1 ≠ []) : (pySplitOnce c s).1.head? = s.head? := by
  unfold pySplitOnce at hne ⊢
  cases h2 : splitAtFirstChar c s with
  | none => rfl
  | some p =>
    obtain ⟨a, b⟩ := p
    rw [h2] at hne
    have hne2 : a ≠ [] := hne
    show a.head? = s.head?
    rw [(splitAtFirstChar_eq h2).1]
    cases a with
    | nil => exact absurd rfl hne2
    | cons x xs => simp

/-! ### UTF-8 round trip -/

theorem utf8EncodeChar_lt (c : Char) : ∀ b ∈ utf8EncodeChar c, b < 256 := by
  intro b hb
  unfold utf8EncodeChar at hb
  have hc := char_toNat_lt c
  by_cases h1 : c.toNat < 128
  · simp [h1] at hb
    omega
  · by_cases h2 : c.toNat < 2048
    · simp [h1, h2] at hb
      rcases hb with hb | hb <;> omega
    · by_cases h3 : c.toNat < 65536
      · simp [h1, h2, h3] at hb
        rcases hb with hb | hb | hb <;> omega
      · simp [h1, h2, h3] at hb
        rcases hb with hb | hb | hb | hb <;> omega

theorem utf8EncodeChar_ne_nil (c : Char) : utf8EncodeChar c ≠ [] := by
  unfold utf8EncodeChar
  by_cases h1 : c.toNat < 128
  · simp [h1]
  · by_cases h2 : c.toNat < 2048
    · simp [h1, h2]
    · by_cases h3 : c.toNat < 65536
      · simp [h1, h2, h3]
      · simp [h1, h2, h3]

theorem utf8_decode_encode_cons (c : Char) (bs : List Nat) :
    utf8DecodeBytes (utf8EncodeChar c ++ bs) = c :: utf8DecodeBytes bs := by
  have hv := char_valid_nat c
  unfold utf8EncodeChar
  by_cases h1 : c.toNat < 128
  · simp only [h1, if_pos, List.cons_append, List.nil_append]
    rw [utf8DecodeBytes, if_pos h1, Char.ofNat_toNat]
  · by_cases h2 : c.toNat < 2048
    · simp only [h1, if_false, h2, if_pos, List.cons_append, List.nil_append]
      rw [utf8DecodeBytes, if_neg (by omega), if_pos (by omega : 194 ≤ 192 + c.toNat / 64 ∧ 192 + c.toNat / 64 ≤ 223)]
      rw [utf8Dec2, if_pos (by omega : 128 ≤ 128 + c.toNat % 64 ∧ 128 + c.toNat % 64 ≤ 191)]
      have harg : (192 + c.toNat / 64 - 192) * 64 + (128 + c.toNat % 64 - 128) = c.toNat := by
        omega
      rw [harg, Char.ofNat_toNat]
    · by_cases h3 : c.toNat < 65536
      · simp only [h1, if_false, h2, h3, if_pos, List.cons_append, List.nil_append]
        rw [utf8DecodeBytes, if_neg (by omega), if_neg (by omega),
          if_pos (by omega : 224 ≤ 224 + c.toNat / 4096 ∧ 224 + c.toNat / 4096 ≤ 239)]
        rw [utf8Dec3, if_pos]
        · rw [utf8Dec3b, if_pos (by omega : 128 ≤ 128 + c.toNat % 64 ∧ 128 + c.toNat % 64 ≤ 191)]
          have harg : (224 + c.toNat / 4096 - 224) * 4096 +
              (128 + c.toNat / 64 % 64 - 128) * 64 + (128 + c.toNat % 64 - 128) = c.toNat := by
            omega
          rw [harg, Char.ofNat_toNat]
        · unfold utf8Cont2Ok
          by_cases he0 : 224 + c.toNat / 4096 = 224
          · rw [if_pos he0]
            omega
          · rw [if_neg he0]
            by_cases hed : 224 + c.toNat / 4096 = 237
            · rw [if_pos hed]
              rcases hv with hv | hv
              · omega
              · omega
            · rw [if_neg hed]
              omega
      · simp only [h1, if_false, h2, h3, List.cons_append, List.nil_append]
        rw [utf8DecodeBytes, if_neg (by omega), if_neg (by omega), if_neg (by omega),
          if_pos (by rcases hv with hv | hv <;> omega :
            240 ≤ 240 + c.toNat / 262144 ∧ 240 + c.toNat / 262144 ≤ 244)]
        rw [utf8Dec4, if_pos]
        · rw [utf8Dec4b, if_pos (by omega : 128 ≤ 128 + c.toNat / 64 % 64 ∧ 128 + c.toNat / 64 % 64 ≤ 191)]
          rw [utf8Dec4c, if_pos (by omega : 128 ≤ 128 + c.toNat % 64 ∧ 128 + c.toNat % 64 ≤ 191)]
          have harg : (240 + c.toNat / 262144 - 240) * 262144 +
              (128 + c.toNat / 4096 % 64 - 128) * 4096 +
              (128 + c.toNat / 64 % 64 - 128) * 64 + (128 + c.toNat % 64 - 128) = c.toNat := by
            omega
          rw [harg, Char.ofNat_toNat]
        · unfold utf8Cont3Ok
          have hup : c.toNat < 1114112 := char_toNat_lt c
          by_cases he0 : 240 + c.toNat / 262144 = 240
          · rw [if_pos he0]
            omega
          · rw [if_neg he0]
            by_cases he4 : 240 + c.toNat / 262144 = 244
            · rw [if_pos he4]
              omega
            · rw [if_neg he4]
              omega

theorem utf8_decode_encode (s : List Char) :
    utf8DecodeBytes (utf8EncodeList s) = s := by
  induction s with
  | nil =>
    show utf8DecodeBytes [] = []
    rw [utf8DecodeBytes]
  | cons c cs ih =>
    unfold utf8EncodeList at ih ⊢
    rw [List.flatMap_cons, utf8_decode_encode_cons, ih]

/-! ### quote / unquote round trip -/

theorem hexVal_hexDigitOf {n : Nat} (h : n < 16) : hexVal (hexDigitOf n) = some n := by
  interval_cases n <;> decide

theorem hexDigitOf_toNat {n : Nat} (h : n < 16) :
    (48 ≤ (hexDigitOf n).toNat ∧ (hexDigitOf n).toNat ≤ 57) ∨
    (65 ≤ (hexDigitOf n).toNat ∧ (hexDigitOf n).toNat ≤ 70) := by
  interval_cases n <;> decide

theorem char_ofNat_toNat_small {b : Nat} (h : b < 128) : (Char.ofNat b).toNat = b :=
  char_toNat_ofNat (by unfold Nat.isValidChar; omega)

theorem char_ofNat_ne_pct {b : Nat} (h : b < 128) (hb : b ≠ 37) : Char.ofNat b ≠ '%' := by
  intro he
  have := char_ofNat_toNat_small h
  rw [he] at this
  exact hb (by simpa using this.symm)

/-- The bytes that `alwaysSafeByte` accepts are printable ASCII other
than '%'. -/
theorem alwaysSafeByte_facts {b : Nat} (h : alwaysSafeByte b = true) :
    b < 128 ∧ b ≠ 37 ∧ 36 < b ∧ b ≠ 38 ∧ b ≠ 61 ∧ b ≠ 35 ∧ b ≠ 63 ∧ b ≠ 47 ∧ b ≠ 43 ∧ b ≠ 32 := by
  unfold alwaysSafeByte at h
  simp only [Bool.or_eq_true, Bool.and_eq_true, decide_eq_true_eq] at h
  rcases h with ((h | h) | h) | h | h | h | h <;> omega

/-- One byte of quote output tokenizes back to that byte. -/
theorem unquoteTokens_quoteByte {safe : List Nat}
    (hsafe : ∀ x ∈ safe, x < 128 ∧ x ≠ 37) {b : Nat} (hb : b < 256) (rest : List Char) :
    unquoteTokens (quoteByte safe b ++ rest) = Sum.inl b :: unquoteTokens rest := by
  unfold quoteByte
  by_cases h : alwaysSafeByte b || safe.contains b
  · rw [if_pos h]
    have hlt : b < 128 ∧ b ≠ 37 := by
      rcases Bool.or_eq_true _ _ |>.mp h with h1 | h1
      · have := alwaysSafeByte_facts h1
        exact ⟨this.1, this.2.1⟩
      · exact hsafe b (by simpa using h1)
    rw [List.cons_append, List.nil_append, unquoteTokens,
      if_neg (char_ofNat_ne_pct hlt.1 hlt.2),
      if_pos (by rw [char_ofNat_toNat_small hlt.1]; exact hlt.1),
      char_ofNat_toNat_small hlt.1]
  · rw [if_neg h]
    have h16a : b / 16 < 16 := by omega
    have h16b : b % 16 < 16 := by omega
    rw [List.cons_append, List.cons_append, List.cons_append, List.nil_append,
      unquoteTokens, if_pos rfl, unquoteTokensPct, hexVal_hexDigitOf h16a,
      hexVal_hexDigitOf h16b]
    show Sum.inl (16 * (b / 16) + b % 16) :: unquoteTokens rest = _
    have hbb : 16 * (b / 16) + b % 16 = b := by omega
    rw [hbb]

theorem unquoteTokens_quoteStr {safe : List Nat}
    (hsafe : ∀ x ∈ safe, x < 128 ∧ x ≠ 37) (s : List Char) :
    unquoteTokens (quoteStr safe s) = (utf8EncodeList s).map Sum.inl := by
  unfold quoteStr
  have hb : ∀ b ∈ utf8EncodeList s, b < 256 := by
    intro b hbm
    unfold utf8EncodeList at hbm
    rw [List.mem_flatMap] at hbm
    obtain ⟨c, _, hc⟩ := hbm
    exact utf8EncodeChar_lt c b hc
  generalize utf8EncodeList s = bs at hb ⊢
  induction bs with
  | nil =>
    show unquoteTokens [] = []
    rw [unquoteTokens]
  | cons b rest ih =>
    rw [List.flatMap_cons, unquoteTokens_quoteByte hsafe (hb b (by simp)), List.map_cons]
    rw [ih (fun x hx => hb x (by simp [hx]))]

theorem decodeRuns_map_inl (acc : List Nat) (bs : List Nat) :
    decodeRuns acc (bs.map Sum.inl) = utf8DecodeBytes (acc.reverse ++ bs) := by
  induction bs generalizing acc with
  | nil => simp [decodeRuns]
  | cons b rest ih =>
    rw [List.map_cons]
    show decodeRuns (b :: acc) (rest.map Sum.inl) = _
    rw [ih (b :: acc)]
    simp

theorem pyUnquote_quoteStr {safe : List Nat}
    (hsafe : ∀ x ∈ safe, x < 128 ∧ x ≠ 37) (s : List Char) :
    pyUnquote (quoteStr safe s) = s := by
  unfold pyUnquote
  rw [unquoteTokens_quoteStr hsafe, decodeRuns_map_inl]
  simpa using utf8_decode_encode s

/-- Classification of the characters that `quoteStr` can emit (with the
only extra safe byte being the space, as in quote_plus). -/
theorem mem_quoteStr_class {safe : List Nat} (hsafe : ∀ x ∈ safe, x = 32)
    {s : List Char} {ch : Char} (h : ch ∈ quoteStr safe s) :
    ch.toNat = 37 ∨ (ch.toNat = 32 ∧ 32 ∈ safe) ∨
    (48 ≤ ch.toNat ∧ ch.toNat ≤ 57) ∨ (65 ≤ ch.toNat ∧ ch.toNat ≤ 90) ∨
    (97 ≤ ch.toNat ∧ ch.toNat ≤ 122) ∨ ch.toNat = 95 ∨ ch.toNat = 46 ∨
    ch.toNat = 45 ∨ ch.toNat = 126 := by
  unfold quoteStr at h
  rw [List.mem_flatMap] at h
  obtain ⟨b, hbm, hbq⟩ := h
  have hb : b < 256 := by
    unfold utf8EncodeList at hbm
    rw [List.mem_flatMap] at hbm
    obtain ⟨c, _, hc⟩ := hbm
    exact utf8EncodeChar_lt c b hc
  unfold quoteByte at hbq
  by_cases hsb : alwaysSafeByte b || safe.contains b
  · rw [if_pos hsb] at hbq
    simp only [List.mem_singleton] at hbq
    subst hbq
    rcases Bool.or_eq_true _ _ |>.mp hsb with h1 | h1
    · have hf := alwaysSafeByte_facts h1
      rw [char_ofNat_toNat_small hf.1]
      unfold alwaysSafeByte at h1
      simp only [Bool.or_eq_true, Bool.and_eq_true, decide_eq_true_eq] at h1
      rcases h1 with ((h1 | h1) | h1) | h1 | h1 | h1 | h1 <;> omega
    · have hmem : b ∈ safe := by simpa using h1
      have h32 : b = 32 := hsafe b hmem
      subst h32
      rw [char_ofNat_toNat_small (by omega)]
      right
      left
      exact ⟨rfl, hmem⟩
  · rw [if_neg hsb] at hbq
    simp only [List.mem_cons, List.mem_singleton] at hbq
    rcases hbq with hbq | hbq | hbq
    · subst hbq
      left
      rfl
    · subst hbq
      rcases hexDigitOf_toNat (show b / 16 < 16 by omega) with h1 | h1 <;> omega
    · rcases hbq with hbq | hbq
      · subst hbq
        rcases hexDigitOf_toNat (show b % 16 < 16 by omega) with h1 | h1 <;> omega
      · simp at hbq

/-- Classification of quote_plus output characters: as for quoteStr but
with '+' (43) possible and the space impossible. -/
theorem mem_quotePlus_class {s : List Char} {ch : Char} (h : ch ∈ quotePlus s) :
    ch.toNat = 37 ∨ ch.toNat = 43 ∨
    (48 ≤ ch.toNat ∧ ch.toNat ≤ 57) ∨ (65 ≤ ch.toNat ∧ ch.toNat ≤ 90) ∨
    (97 ≤ ch.toNat ∧ ch.toNat ≤ 122) ∨ ch.toNat = 95 ∨ ch.toNat = 46 ∨
    ch.toNat = 45 ∨ ch.toNat = 126 := by
  unfold quotePlus at h
  by_cases hsp : s.contains ' '
  · rw [if_pos hsp] at h
    rw [List.mem_map] at h
    obtain ⟨c0, hc0, hc0e⟩ := h
    have hclass := @mem_quoteStr_class [32] (by intro x hx; simpa using hx) _ _ hc0
    by_cases hc0sp : c0 = ' '
    · subst hc0sp
      simp only [if_pos rfl] at hc0e
      subst hc0e
      right
      left
      rfl
    · rw [if_neg hc0sp] at hc0e
      subst hc0e
      have : c0.toNat ≠ 32 := by
        intro he
        exact hc0sp (char_toNat_inj (by simpa using he))
      rcases hclass with h1 | h1 | h1 | h1 | h1 | h1 | h1 | h1 | h1 <;> omega
  · rw [if_neg hsp] at h
    have hclass := @mem_quoteStr_class [] (by intro x hx; simp at hx) _ _ h
    rcases hclass with h1 | h1 | h1 | h1 | h1 | h1 | h1 | h1 | h1
    · omega
    · simp at h1
    all_goals omega

theorem mem_quotePlus_facts {s : List Char} {ch : Char} (h : ch ∈ quotePlus s) :
    36 < ch.toNat ∧ ch.toNat < 128 ∧ ch ≠ '&' ∧ ch ≠ '=' ∧ ch ≠ '#' ∧
    ch ≠ '?' ∧ ch ≠ '/' ∧ ch ≠ ';' ∧ ch ≠ ':' := by
  have hclass := mem_quotePlus_class h
  refine ⟨?_, ?_, ?_, ?_, ?_, ?_, ?_, ?_, ?_⟩
  · rcases hclass with h1 | h1 | h1 | h1 | h1 | h1 | h1 | h1 | h1 <;> omega
  · rcases hclass with h1 | h1 | h1 | h1 | h1 | h1 | h1 | h1 | h1 <;> omega
  all_goals
    intro he
    rw [he] at hclass
    revert hclass
    decide

theorem pyUnquote_plusToSpace_quotePlus (s : List Char) :
    pyUnquote (plusToSpace (quotePlus s)) = s := by
  unfold quotePlus
  by_cases hsp : s.contains ' '
  · rw [if_pos hsp]
    have hmap : plusToSpace ((quoteStr [32] s).map (fun c => if c = ' ' then '+' else c)) =
        quoteStr [32] s := by
      unfold plusToSpace
      rw [List.map_map]
      have : ∀ c ∈ quoteStr [32] s,
          ((fun c => if c = '+' then ' ' else c) ∘ fun c => if c = ' ' then '+' else c) c = id c := by
        intro c hc
        have hclass := @mem_quoteStr_class [32] (by intro x hx; simpa using hx) _ _ hc
        by_cases hcs : c = ' '
        · simp [hcs]
        · have hcp : c ≠ '+' := by
            intro he
            rw [he] at hclass
            revert hclass
            decide
          simp [hcs, hcp]
      rw [List.map_congr_left this, List.map_id]
    rw [hmap]
    exact pyUnquote_quoteStr (by intro x hx; simp at hx; omega) s
  · rw [if_neg hsp]
    have hmap : plusToSpace (quoteStr [] s) = quoteStr [] s := by
      unfold plusToSpace
      have : ∀ c ∈ quoteStr [] s, (fun c => if c = '+' then ' ' else c) c = id c := by
        intro c hc
        have hclass := @mem_quoteStr_class [] (by intro x hx; simp at hx) _ _ hc
        have hcp : c ≠ '+' := by
          intro he
          rw [he] at hclass
          revert hclass
          decide
        simp [hcp]
      rw [List.map_congr_left this, List.map_id]
    rw [hmap]
    exact pyUnquote_quoteStr (by intro x hx; simp at hx) s

/-! ### parse_qsl is a left inverse of urlencode -/

theorem intercalate_singleton (sep x : List Char) : List.intercalate sep [x] = x := by
  simp [List.intercalate]

theorem intercalate_cons₂ (sep x y : List Char) (rest : List (List Char)) :
    List.intercalate sep (x :: y :: rest) = x ++ sep ++ List.intercalate sep (y :: rest) := by
  simp [List.intercalate, List.intersperse]

theorem pySplitAll_intercalate {parts : List (List Char)} {c : Char}
    (hne : parts ≠ []) (hmem : ∀ p ∈ parts, c ∉ p) :
    pySplitAll c (List.intercalate [c] parts) = parts := by
  induction parts with
  | nil => exact absurd rfl hne
  | cons x rest ih =>
    cases rest with
    | nil =>
      rw [intercalate_singleton, pySplitAll,
        splitAtFirstChar_none_iff.mpr (hmem x (by simp))]
    | cons y rest2 =>
      rw [intercalate_cons₂, List.append_assoc, List.cons_append, List.nil_append,
        pySplitAll, splitAtFirstChar_append _ (hmem x (by simp))]
      show x :: pySplitAll c (List.intercalate [c] (y :: rest2)) = x :: y :: rest2
      rw [ih (by simp) (fun p hp => hmem p (by simp [hp]))]

theorem filterMap_eq_self_of {α : Type} {f : α → Option α} {l : List α}
    (h : ∀ a ∈ l, f a = some a) : l.filterMap f = l := by
  induction l with
  | nil => rfl
  | cons x xs ih =>
    rw [List.filterMap_cons, h x (by simp), ih (fun a ha => h a (by simp [ha]))]

theorem parse_qsl_urlencode (q : List (List Char × List Char)) :
    parse_qsl (urlencode q) = q := by
  cases q with
  | nil =>
    show parse_qsl (List.intercalate ['&'] []) = []
    simp [List.intercalate, parse_qsl]
  | cons kv rest =>
    unfold parse_qsl urlencode
    have hchunk : ∀ p ∈ (kv :: rest).map
        (fun kv => quotePlus kv.1 ++ '=' :: quotePlus kv.2), '&' ∉ p := by
      intro p hp
      rw [List.mem_map] at hp
      obtain ⟨ab, _, habe⟩ := hp
      subst habe
      intro hmem
      rw [List.mem_append] at hmem
      rcases hmem with hmem | hmem
      · exact (mem_quotePlus_facts hmem).2.2.1 rfl
      · rw [List.mem_cons] at hmem
        rcases hmem with hmem | hmem
        · exact absurd hmem.symm (by decide)
        · exact (mem_quotePlus_facts hmem).2.2.1 rfl
    have hne : List.intercalate ['&']
        ((kv :: rest).map (fun kv => quotePlus kv.1 ++ '=' :: quotePlus kv.2)) ≠ [] := by
      cases rest with
      | nil =>
        rw [List.map_cons, List.map_nil, intercalate_singleton]
        simp
      | cons y r2 =>
        rw [List.map_cons, List.map_cons, intercalate_cons₂]
        simp
    rw [if_neg hne, pySplitAll_intercalate (by simp) hchunk, List.filterMap_map]
    apply filterMap_eq_self_of
    intro ab _
    show (if quotePlus ab.1 ++ '=' :: quotePlus ab.2 = [] then none else _) = _
    rw [if_neg (by simp)]
    have hsplit : splitAtFirstChar '=' (quotePlus ab.1 ++ '=' :: quotePlus ab.2) =
        some (quotePlus ab.1, quotePlus ab.2) := by
      apply splitAtFirstChar_append
      intro hmem
      exact (mem_quotePlus_facts hmem).2.2.2.1 rfl
    rw [hsplit]
    show some (pyUnquote (plusToSpace (quotePlus ab.1)),
      pyUnquote (plusToSpace (quotePlus ab.2))) = some ab
    rw [pyUnquote_plusToSpace_quotePlus, pyUnquote_plusToSpace_quotePlus]

/-! ### urlencode output characters -/

theorem mem_intercalate_sep {sep : Char} {parts : List (List Char)} {ch : Char}
    (h : ch ∈ List.intercalate [sep] parts) : ch = sep ∨ ∃ p ∈ parts, ch ∈ p := by
  induction parts with
  | nil =>
    simp [List.intercalate] at h
  | cons x rest ih =>
    cases rest with
    | nil =>
      rw [intercalate_singleton] at h
      exact Or.inr ⟨x, by simp, h⟩
    | cons y r2 =>
      rw [intercalate_cons₂, List.append_assoc, List.cons_append, List.nil_append] at h
      rw [List.mem_append] at h
      rcases h with h | h
      · exact Or.inr ⟨x, by simp, h⟩
      · rw [List.mem_cons] at h
        rcases h with h | h
        · exact Or.inl h
        · rcases ih h with h2 | ⟨p, hp, hcp⟩
          · exact Or.inl h2
          · exact Or.inr ⟨p, by simp [hp], hcp⟩

theorem mem_urlencode_facts {q : List (List Char × List Char)} {ch : Char}
    (h : ch ∈ urlencode q) :
    ch ≠ '#' ∧ ch ≠ '?' ∧ ¬ tabCrLf ch = true ∧ ¬ c0OrSpace ch = true ∧ ¬ pyWsChar ch = true := by
  unfold urlencode at h
  have hcase : ch = '&' ∨ ch = '=' ∨ 36 < ch.toNat ∧ ch.toNat < 128 ∧ ch ≠ '&' ∧ ch ≠ '=' ∧
      ch ≠ '#' ∧ ch ≠ '?' ∧ ch ≠ '/' ∧ ch ≠ ';' ∧ ch ≠ ':' := by
    rcases mem_intercalate_sep h with h1 | ⟨p, hp, hcp⟩
    · exact Or.inl h1
    · rw [List.mem_map] at hp
      obtain ⟨kv, _, hkv⟩ := hp
      subst hkv
      rw [List.mem_append] at hcp
      rcases hcp with hcp | hcp
      · exact Or.inr (Or.inr (mem_quotePlus_facts hcp))
      · rw [List.mem_cons] at hcp
        rcases hcp with hcp | hcp
        · exact Or.inr (Or.inl hcp)
        · exact Or.inr (Or.inr (mem_quotePlus_facts hcp))
  rcases hcase with h1 | h1 | h1
  · subst h1
    refine ⟨by decide, by decide, by decide, by decide, by decide⟩
  · subst h1
    refine ⟨by decide, by decide, by decide, by decide, by decide⟩
  · obtain ⟨hgt, hlt, _, _, h3, h4, _, _, _⟩ := h1
    have hne : ∀ d : Char, d.toNat ≤ 36 → ch ≠ d := by
      intro d hd he
      rw [he] at hgt
      omega
    refine ⟨h3, h4, ?_, ?_, ?_⟩
    · simp [tabCrLf, hne '\t' (by decide), hne '\r' (by decide), hne '\n' (by decide)]
    · simp only [c0OrSpace, decide_eq_true_eq]
      omega
    · simp [pyWsChar, hne ' ' (by decide), hne '\t' (by decide), hne '\n' (by decide),
        hne '\r' (by decide), hne (Char.ofNat 11) (by decide), hne (Char.ofNat 12) (by decide)]

/-! ### splitparams structure -/

theorem urlunparse_recombine (scheme netloc path params query fragment : List Char) :
    urlunparse scheme netloc path params query fragment =
      urlunsplit scheme netloc (recombineParams path params) query fragment := by
  unfold urlunparse recombineParams
  by_cases hm : params = []
  · rw [if_neg (by simp [hm]), if_pos hm]
  · rw [if_pos (by simp [hm]), if_neg hm]

theorem splitparams_no_slash {u : List Char} (hs : '/' ∉ u) (hsemi : ';' ∉ u) :
    splitparams u = (u, []) := by
  unfold splitparams
  rw [if_neg hs, splitAtFirstChar_none_iff.mpr hsemi]

theorem splitparams_no_slash_semi {a b : List Char} (ha : '/' ∉ a) (hb : '/' ∉ b)
    (hsemi : ';' ∉ a) : splitparams (a ++ ';' :: b) = (a, b) := by
  unfold splitparams
  rw [if_neg (by
    simp only [List.mem_append, List.mem_cons, not_or]
    exact ⟨ha, by decide, hb⟩)]
  rw [splitAtFirstChar_append _ hsemi]

theorem splitparams_append_slash {pr a : List Char} (ha : '/' ∉ a) (hsemi : ';' ∉ a) :
    splitparams (pr ++ '/' :: a) = (pr ++ '/' :: a, []) := by
  unfold splitparams
  rw [if_pos (by simp)]
  have hrev : (pr ++ '/' :: a).reverse = a.reverse ++ '/' :: pr.reverse := by
    simp
  have hall : ∀ ch ∈ a.reverse, (fun c => decide (c ≠ '/')) ch = true := by
    intro ch hch
    rw [List.mem_reverse] at hch
    simp only [decide_eq_true_eq]
    intro he
    rw [he] at hch
    exact ha hch
  rw [hrev, takeWhile_append_all _ hall, takeWhile_cons_neg _ (by simp),
    List.append_nil, List.reverse_reverse,
    splitAtFirstChar_none_iff.mpr hsemi]

theorem splitparams_append_slash_semi {pr a b : List Char} (ha : '/' ∉ a) (hb : '/' ∉ b)
    (hsemi : ';' ∉ a) :
    splitparams (pr ++ '/' :: (a ++ ';' :: b)) = (pr ++ '/' :: a, b) := by
  unfold splitparams
  rw [if_pos (by simp)]
  have hrev : (pr ++ '/' :: (a ++ ';' :: b)).reverse =
      (b.reverse ++ ';' :: a.reverse) ++ '/' :: pr.reverse := by
    simp
  have hall : ∀ ch ∈ b.reverse ++ ';' :: a.reverse, (fun c => decide (c ≠ '/')) ch = true := by
    intro ch hch
    simp only [decide_eq_true_eq]
    intro he
    subst he
    rw [List.mem_append, List.mem_cons] at hch
    rcases hch with hch | hch | hch
    · exact hb (List.mem_reverse.mp hch)
    · exact absurd hch.symm (by decide)
    · exact ha (List.mem_reverse.mp hch)
  rw [hrev, takeWhile_append_all _ hall, takeWhile_cons_neg _ (by simp),
    List.append_nil, dropWhile_append_all _ hall, dropWhile_cons_neg _ (by simp)]
  have h1 : (b.reverse ++ ';' :: a.reverse).reverse = a ++ ';' :: b := by
    simp
  have h2 : ('/' :: pr.reverse).reverse = pr ++ ['/'] := by
    simp
  rw [h1, h2, splitAtFirstChar_append _ hsemi]
  simp

theorem exists_first_split {c : Char} {u : List Char} (h : c ∈ u) :
    ∃ a b, u = a ++ c :: b ∧ c ∉ a := by
  cases hsp : splitAtFirstChar c u with
  | none => exact absurd (splitAtFirstChar_none_iff.mp hsp) (by simp [h])
  | some ab =>
    obtain ⟨a, b⟩ := ab
    obtain ⟨h1, h2⟩ := splitAtFirstChar_eq hsp
    exact ⟨a, b, h1, h2⟩

theorem exists_last_split {u : List Char} (h : '/' ∈ u) :
    ∃ pr a, u = pr ++ '/' :: a ∧ '/' ∉ a := by
  obtain ⟨x, y, hxy, hnx⟩ := @exists_first_split '/' u.reverse (by simpa using h)
  refine ⟨y.reverse, x.reverse, ?_, by simpa using hnx⟩
  have := congrArg List.reverse hxy
  rw [List.reverse_reverse] at this
  rw [this]
  simp

theorem splitparams_good (u : List Char) : SPGood (splitparams u).1 (splitparams u).2 := by
  by_cases hs : '/' ∈ u
  · obtain ⟨pr, a, hu, hna⟩ := exists_last_split hs
    by_cases hsemi : ';' ∈ a
    · obtain ⟨a1, b1, ha, hna1⟩ := exists_first_split hsemi
      have hsla1 : '/' ∉ a1 := fun hm => hna (by rw [ha]; simp [hm])
      have hslb1 : '/' ∉ b1 := fun hm => hna (by rw [ha]; simp [hm])
      rw [hu, ha, splitparams_append_slash_semi hsla1 hslb1 hna1]
      refine ⟨hslb1, ?_, ?_⟩
      · intro _
        exact ⟨pr, a1, rfl, hsla1, hna1⟩
      · intro hn
        exact absurd (by simp : '/' ∈ pr ++ '/' :: a1) hn
    · rw [hu, splitparams_append_slash hna hsemi]
      refine ⟨by simp, ?_, ?_⟩
      · intro _
        exact ⟨pr, a, rfl, hna, hsemi⟩
      · intro hn
        exact absurd (by simp : '/' ∈ pr ++ '/' :: a) hn
  · by_cases hsemi : ';' ∈ u
    · obtain ⟨a, b, hu, hna⟩ := exists_first_split hsemi
      have hsla : '/' ∉ a := fun hm => hs (by rw [hu]; simp [hm])
      have hslb : '/' ∉ b := fun hm => hs (by rw [hu]; simp [hm])
      rw [hu, splitparams_no_slash_semi hsla hslb hna]
      exact ⟨hslb, fun hm => absurd hm hsla, fun _ => hna⟩
    · rw [splitparams_no_slash hs hsemi]
      exact ⟨by simp, fun hm => absurd hm hs, fun _ => hsemi⟩

theorem splitparams_recombine_good {p m : List Char} (h : SPGood p m) :
    splitparams (recombineParams p m) = (p, m) := by
  obtain ⟨hm, hyes, hno⟩ := h
  unfold recombineParams
  by_cases hme : m = []
  · subst hme
    rw [if_pos rfl]
    by_cases hsp : '/' ∈ p
    · obtain ⟨pr, a, hpe, hana, hsemi⟩ := hyes hsp
      rw [hpe]
      exact splitparams_append_slash hana hsemi
    · exact splitparams_no_slash hsp (hno hsp)
  · rw [if_neg hme]
    by_cases hsp : '/' ∈ p
    · obtain ⟨pr, a, hpe, hana, hsemi⟩ := hyes hsp
      rw [hpe, List.append_assoc, List.cons_append]
      have := @splitparams_append_slash_semi pr a m hana hm hsemi
      rw [this]
    · rw [splitparams_no_slash_semi hsp hm (hno hsp)]

theorem SPGood_default {p m : List Char} (h : SPGood p m) :
    SPGood (if p = [] then ['/'] else p) m := by
  by_cases hp : p = []
  · rw [if_pos hp]
    refine ⟨h.1, ?_, ?_⟩
    · intro _
      exact ⟨[], [], by simp, by simp, by simp⟩
    · intro hn
      simp at hn
  · rw [if_neg hp]
    exact h

theorem SPGood_cons_slash {p m : List Char} (h : SPGood p m) : SPGood ('/' :: p) m := by
  obtain ⟨hm, hyes, hno⟩ := h
  refine ⟨hm, ?_, ?_⟩
  · intro _
    by_cases hsp : '/' ∈ p
    · obtain ⟨pr, a, hpe, hana, hsemi⟩ := hyes hsp
      exact ⟨'/' :: pr, a, by rw [hpe]; simp, hana, hsemi⟩
    · exact ⟨[], p, by simp, hsp, hno hsp⟩
  · intro hn
    simp at hn

theorem recombine_cons_slash (p m : List Char) :
    recombineParams ('/' :: p) m = '/' :: recombineParams p m := by
  unfold recombineParams
  by_cases hm : m = []
  · rw [if_pos hm, if_pos hm]
  · rw [if_neg hm, if_neg hm]
    rfl

theorem recombineParams_ne_nil {p m : List Char} (hp : p ≠ []) :
    recombineParams p m ≠ [] := by
  unfold recombineParams
  by_cases hm : m = []
  · rw [if_pos hm]
    exact hp
  · rw [if_neg hm]
    simp [hp]

theorem recombineParams_head {p m : List Char} (hp : p ≠ []) :
    (recombineParams p m).head? = p.head? := by
  unfold recombineParams
  by_cases hm : m = []
  · rw [if_pos hm]
  · rw [if_neg hm]
    cases p with
    | nil => exact absurd rfl hp
    | cons x xs => simp

theorem mem_recombineParams {p m : List Char} {ch : Char} (h : ch ∈ recombineParams p m) :
    ch ∈ p ∨ ch = ';' ∨ ch ∈ m := by
  unfold recombineParams at h
  by_cases hm : m = []
  · rw [if_pos hm] at h
    exact Or.inl h
  · rw [if_neg hm] at h
    rw [List.mem_append, List.mem_cons] at h
    rcases h with h | h | h
    · exact Or.inl h
    · exact Or.inr (Or.inl h)
    · exact Or.inr (Or.inr h)

/-! ### Character-class arithmetic characterizations -/

theorem char_eq_iff_toNat {c d : Char} : c = d ↔ c.toNat = d.toNat :=
  ⟨fun h => by rw [h], char_toNat_inj⟩

theorem pyLowerChar_toNat (c : Char) :
    (pyLowerChar c).toNat =
      if 65 ≤ c.toNat ∧ c.toNat ≤ 90 then c.toNat + 32 else c.toNat := by
  unfold pyLowerChar
  by_cases h : 65 ≤ c.toNat ∧ c.toNat ≤ 90
  · rw [if_pos h, if_pos h, char_toNat_ofNat (by unfold Nat.isValidChar; omega)]
  · rw [if_neg h, if_neg h]

theorem schemeChar_iff {c : Char} :
    schemeChar c = true ↔
      (65 ≤ c.toNat ∧ c.toNat ≤ 90) ∨ (97 ≤ c.toNat ∧ c.toNat ≤ 122) ∨
      (48 ≤ c.toNat ∧ c.toNat ≤ 57) ∨ c.toNat = 43 ∨ c.toNat = 45 ∨ c.toNat = 46 := by
  unfold schemeChar
  simp only [Bool.or_eq_true, decide_eq_true_eq, Char.isAlpha, Char.isUpper, Char.isLower,
    Char.isDigit, Bool.and_eq_true, char_eq_iff_toNat]
  constructor
  · intro h
    rcases h with (((h | h) | h) | h) | h
    · rcases h with h | h
      · exact Or.inl ⟨h.1, h.2⟩
      · exact Or.inr (Or.inl ⟨h.1, h.2⟩)
    · exact Or.inr (Or.inr (Or.inl ⟨h.1, h.2⟩))
    · exact Or.inr (Or.inr (Or.inr (Or.inl h)))
    · exact Or.inr (Or.inr (Or.inr (Or.inr (Or.inl h))))
    · exact Or.inr (Or.inr (Or.inr (Or.inr (Or.inr h))))
  · intro h
    rcases h with h | h | h | h | h | h
    · exact Or.inl (Or.inl (Or.inl (Or.inl (Or.inl ⟨h.1, h.2⟩))))
    · exact Or.inl (Or.inl (Or.inl (Or.inl (Or.inr ⟨h.1, h.2⟩))))
    · exact Or.inl (Or.inl (Or.inl (Or.inr ⟨h.1, h.2⟩)))
    · exact Or.inl (Or.inl (Or.inr h))
    · exact Or.inl (Or.inr h)
    · exact Or.inr h

theorem netlocEnd_iff {c : Char} :
    netlocEnd c = true ↔ c.toNat = 47 ∨ c.toNat = 63 ∨ c.toNat = 35 := by
  unfold netlocEnd
  simp only [Bool.or_eq_true, decide_eq_true_eq, char_eq_iff_toNat]
  constructor
  · intro h
    rcases h with (h | h) | h
    · exact Or.inl h
    · exact Or.inr (Or.inl h)
    · exact Or.inr (Or.inr h)
  · intro h
    rcases h with h | h | h
    · exact Or.inl (Or.inl h)
    · exact Or.inl (Or.inr h)
    · exact Or.inr h

theorem tabCrLf_iff {c : Char} :
    tabCrLf c = true ↔ c.toNat = 9 ∨ c.toNat = 13 ∨ c.toNat = 10 := by
  unfold tabCrLf
  simp only [Bool.or_eq_true, decide_eq_true_eq, char_eq_iff_toNat,
    show ('\t').toNat = 9 from rfl, show ('\x0d').toNat = 13 from rfl,
    show ('\n').toNat = 10 from rfl]
  constructor
  · intro h
    rcases h with (h | h) | h
    · exact Or.inl h
    · exact Or.inr (Or.inl h)
    · exact Or.inr (Or.inr h)
  · intro h
    rcases h with h | h | h
    · exact Or.inl (Or.inl h)
    · exact Or.inl (Or.inr h)
    · exact Or.inr h

theorem c0OrSpace_iff {c : Char} : c0OrSpace c = true ↔ c.toNat ≤ 32 := by
  unfold c0OrSpace
  simp

theorem char_isAlpha_toNat {c : Char} (h : c.isAlpha = true) :
    (65 ≤ c.toNat ∧ c.toNat ≤ 90) ∨ (97 ≤ c.toNat ∧ c.toNat ≤ 122) := by
  simp only [Char.isAlpha, Char.isUpper, Char.isLower, Bool.or_eq_true, Bool.and_eq_true,
    decide_eq_true_eq] at h
  rcases h with ⟨h1, h2⟩ | ⟨h1, h2⟩
  · exact Or.inl ⟨h1, h2⟩
  · exact Or.inr ⟨h1, h2⟩

theorem char_isAlpha_of_toNat {c : Char}
    (h : (65 ≤ c.toNat ∧ c.toNat ≤ 90) ∨ (97 ≤ c.toNat ∧ c.toNat ≤ 122)) :
    c.isAlpha = true := by
  simp only [Char.isAlpha, Char.isUpper, Char.isLower, Bool.or_eq_true, Bool.and_eq_true,
    decide_eq_true_eq]
  rcases h with ⟨h1, h2⟩ | ⟨h1, h2⟩
  · exact Or.inl ⟨h1, h2⟩
  · exact Or.inr ⟨h1, h2⟩

/-- Lowering preserves scheme validity. -/
theorem pyLower_validScheme {s : List Char} (h : validScheme s = true) :
    validScheme (pyLower s) = true := by
  cases s with
  | nil => simp [validScheme] at h
  | cons c rest =>
    unfold validScheme at h
    rw [Bool.and_eq_true] at h
    have hmap : pyLower (c :: rest) = pyLowerChar c :: pyLower rest := rfl
    rw [hmap]
    unfold validScheme
    rw [Bool.and_eq_true]
    constructor
    · have hthis := char_isAlpha_toNat h.1
      apply char_isAlpha_of_toNat
      rw [pyLowerChar_toNat]
      rcases hthis with h1 | h1
      · rw [if_pos h1]
        right
        omega
      · rw [if_neg (by omega)]
        right
        omega
    · rw [List.all_eq_true] at h ⊢
      intro x hx
      have hx2 : x ∈ pyLowerChar c :: pyLower rest := hx
      rw [List.mem_cons] at hx2
      have key : ∀ y : Char, schemeChar y = true → schemeChar (pyLowerChar y) = true := by
        intro y hy
        rw [schemeChar_iff] at hy ⊢
        rw [pyLowerChar_toNat]
        by_cases hc : 65 ≤ y.toNat ∧ y.toNat ≤ 90
        · rw [if_pos hc]
          omega
        · rw [if_neg hc]
          omega
      rcases hx2 with hx2 | hx2
      · subst hx2
        exact key c (h.2 c (by simp))
      · unfold pyLower at hx2
        rw [List.mem_map] at hx2
        obtain ⟨y, hy, hye⟩ := hx2
        subst hye
        exact key y (h.2 y (by simp [hy]))

theorem validScheme_ne_nil {s : List Char} (h : validScheme s = true) : s ≠ [] := by
  cases s with
  | nil => simp [validScheme] at h
  | cons c rest => simp

theorem validScheme_all {s : List Char} (h : validScheme s = true) :
    ∀ ch ∈ s, schemeChar ch = true := by
  cases s with
  | nil => simp [validScheme] at h
  | cons c rest =>
    unfold validScheme at h
    rw [Bool.and_eq_true, List.all_eq_true] at h
    exact h.2

theorem validScheme_head {s : List Char} (h : validScheme s = true) :
    ∃ c rest, s = c :: rest ∧ c.isAlpha = true := by
  cases s with
  | nil => simp [validScheme] at h
  | cons c rest =>
    unfold validScheme at h
    rw [Bool.and_eq_true] at h
    exact ⟨c, rest, rfl, h.1⟩

theorem colon_not_mem_scheme {s : List Char} (h : validScheme s = true) : ':' ∉ s := by
  intro hm
  have := validScheme_all h ':' hm
  rw [schemeChar_iff] at this
  revert this
  decide

/-- Lowering preserves absence of netloc terminators and of tab/CR/LF. -/
theorem pyLowerChar_classFree {c : Char} (h1 : netlocEnd c = false) (h2 : tabCrLf c = false) :
    netlocEnd (pyLowerChar c) = false ∧ tabCrLf (pyLowerChar c) = false := by
  have hne : ¬ netlocEnd c = true := by simp [h1]
  have hnt : ¬ tabCrLf c = true := by simp [h2]
  rw [netlocEnd_iff] at hne
  rw [tabCrLf_iff] at hnt
  constructor
  · rw [Bool.eq_false_iff]
    intro hmem
    rw [netlocEnd_iff, pyLowerChar_toNat] at hmem
    by_cases hc : 65 ≤ c.toNat ∧ c.toNat ≤ 90
    · rw [if_pos hc] at hmem
      omega
    · rw [if_neg hc] at hmem
      exact hne hmem
  · rw [Bool.eq_false_iff]
    intro hmem
    rw [tabCrLf_iff, pyLowerChar_toNat] at hmem
    by_cases hc : 65 ≤ c.toNat ∧ c.toNat ≤ 90
    · rw [if_pos hc] at hmem
      omega
    · rw [if_neg hc] at hmem
      exact hnt hmem

theorem pyLower_contains_eq {t : Char}
    (ht : ¬(97 ≤ t.toNat ∧ t.toNat ≤ 122) ∧ ¬(65 ≤ t.toNat ∧ t.toNat ≤ 90)) (s : List Char) :
    (pyLower s).contains t = s.contains t := by
  by_cases h : t ∈ s
  · have h1 : (pyLower s).contains t = true := List.elem_iff.mpr ((mem_pyLower_iff ht s).mpr h)
    have h2 : s.contains t = true := List.elem_iff.mpr h
    rw [h1, h2]
  · have h1 : (pyLower s).contains t = false := by
      rw [Bool.eq_false_iff]
      intro hc
      exact h ((mem_pyLower_iff ht s).mp (List.elem_iff.mp hc))
    have h2 : s.contains t = false := by
      rw [Bool.eq_false_iff]
      intro hc
      exact h (List.elem_iff.mp hc)
    rw [h1, h2]

/-! ### splitparams extras -/

theorem splitparams_no_semi {u : List Char} (h : ';' ∉ u) : splitparams u = (u, []) := by
  by_cases hs : '/' ∈ u
  · obtain ⟨pr, a, hu, hna⟩ := exists_last_split hs
    rw [hu]
    exact splitparams_append_slash hna (fun hm => h (by rw [hu]; simp [hm]))
  · exact splitparams_no_slash hs h

theorem splitparams_ite (u : List Char) :
    (if ';' ∈ u then splitparams u else (u, [])) = splitparams u := by
  by_cases h : ';' ∈ u
  · rw [if_pos h]
  · rw [if_neg h, splitparams_no_semi h]

theorem mem_splitparams {u : List Char} {ch : Char} :
    (ch ∈ (splitparams u).1 → ch ∈ u) ∧ (ch ∈ (splitparams u).2 → ch ∈ u) := by
  by_cases hs : '/' ∈ u
  · obtain ⟨pr, a, hu, hna⟩ := exists_last_split hs
    by_cases hsemi : ';' ∈ a
    · obtain ⟨a1, b1, ha, hna1⟩ := exists_first_split hsemi
      have hsla1 : '/' ∉ a1 := fun hm => hna (by rw [ha]; simp [hm])
      have hslb1 : '/' ∉ b1 := fun hm => hna (by rw [ha]; simp [hm])
      rw [hu, ha, splitparams_append_slash_semi hsla1 hslb1 hna1]
      constructor
      · intro hm
        simp only [List.mem_append, List.mem_cons] at hm ⊢
        rcases hm with hm | hm | hm
        · exact Or.inl hm
        · exact Or.inr (Or.inl hm)
        · exact Or.inr (Or.inr (by simp [hm]))
      · intro hm
        simp only [List.mem_append, List.mem_cons]
        exact Or.inr (Or.inr (by simp [hm]))
    · rw [hu, splitparams_append_slash hna hsemi]
      exact ⟨fun hm => hm, fun hm => by simp at hm⟩
  · by_cases hsemi : ';' ∈ u
    · obtain ⟨a, b, hu, hna⟩ := exists_first_split hsemi
      have hsla : '/' ∉ a := fun hm => hs (by rw [hu]; simp [hm])
      have hslb : '/' ∉ b := fun hm => hs (by rw [hu]; simp [hm])
      rw [hu, splitparams_no_slash_semi hsla hslb hna]
      constructor
      · intro hm
        simp [hm]
      · intro hm
        simp [hm]
    · rw [splitparams_no_slash hs hsemi]
      exact ⟨fun hm => hm, fun hm => by simp at hm⟩

theorem splitparams_fst_head {u : List Char} (hne : (splitparams u).1 ≠ []) :
    (splitparams u).1.head? = u.head? := by
  by_cases hs : '/' ∈ u
  · obtain ⟨pr, a, hu, hna⟩ := exists_last_split hs
    by_cases hsemi : ';' ∈ a
    · obtain ⟨a1, b1, ha, hna1⟩ := exists_first_split hsemi
      have hsla1 : '/' ∉ a1 := fun hm => hna (by rw [ha]; simp [hm])
      have hslb1 : '/' ∉ b1 := fun hm => hna (by rw [ha]; simp [hm])
      rw [hu, ha, splitparams_append_slash_semi hsla1 hslb1 hna1]
      cases pr with
      | nil => simp
      | cons x xs => simp
    · rw [hu, splitparams_append_slash hna hsemi]
  · by_cases hsemi : ';' ∈ u
    · obtain ⟨a, b, hu, hna⟩ := exists_first_split hsemi
      have hsla : '/' ∉ a := fun hm => hs (by rw [hu]; simp [hm])
      have hslb : '/' ∉ b := fun hm => hs (by rw [hu]; simp [hm])
      rw [hu, splitparams_no_slash_semi hsla hslb hna] at hne ⊢
      cases a with
      | nil => exact absurd rfl hne
      | cons x xs => simp
    · rw [splitparams_no_slash hs hsemi]

/-! ### Reassembly stage lemmas -/

theorem schemeChar_class_facts {c : Char} (h : schemeChar c = true) :
    tabCrLf c = false ∧ c0OrSpace c = false ∧ c ≠ ':' ∧ c ≠ '#' ∧ c ≠ '?' := by
  rw [schemeChar_iff] at h
  refine ⟨?_, ?_, ?_, ?_, ?_⟩
  · rw [Bool.eq_false_iff]
    intro hm
    rw [tabCrLf_iff] at hm
    omega
  · rw [Bool.eq_false_iff]
    intro hm
    rw [c0OrSpace_iff] at hm
    omega
  · rw [Ne, char_eq_iff_toNat]
    intro hm
    rw [show (':').toNat = 58 from rfl] at hm
    omega
  · rw [Ne, char_eq_iff_toNat]
    intro hm
    rw [show ('#').toNat = 35 from rfl] at hm
    omega
  · rw [Ne, char_eq_iff_toNat]
    intro hm
    rw [show ('?').toNat = 63 from rfl] at hm
    omega

theorem urlsplitClean_reassembled {scheme rest : List Char}
    (hS : validScheme scheme = true)
    (hrest : ∀ ch ∈ rest, tabCrLf ch = false) :
    urlsplitClean (scheme ++ ':' :: rest) = scheme ++ ':' :: rest := by
  obtain ⟨c, stail, hse, hca⟩ := validScheme_head hS
  unfold urlsplitClean
  have hdrop : (scheme ++ ':' :: rest).dropWhile c0OrSpace = scheme ++ ':' :: rest := by
    rw [hse, List.cons_append]
    apply dropWhile_cons_neg
    intro hm
    rw [c0OrSpace_iff] at hm
    rcases char_isAlpha_toNat hca with h1 | h1 <;> omega
  rw [hdrop, List.filter_eq_self.mpr]
  intro ch hm
  rw [List.mem_append, List.mem_cons] at hm
  rcases hm with hm | hm | hm
  · have := (schemeChar_class_facts (validScheme_all hS ch hm)).1
    simp [this]
  · subst hm
    decide
  · simp [hrest ch hm]

theorem schemeSplit_reassembled {scheme : List Char} (rest : List Char)
    (hS : validScheme scheme = true) (hlow : pyLower scheme = scheme) :
    schemeSplit (scheme ++ ':' :: rest) = (scheme, rest) := by
  unfold schemeSplit
  rw [splitAtFirstChar_append _ (colon_not_mem_scheme hS)]
  show (if validScheme scheme = true then (pyLower scheme, rest)
    else ([], scheme ++ ':' :: rest)) = (scheme, rest)
  rw [if_pos hS, hlow]

theorem netlocSplit_double {netloc tl : List Char}
    (hN : ∀ ch ∈ netloc, netlocEnd ch = false) :
    netlocSplit ('/' :: '/' :: (netloc ++ '/' :: tl)) = (netloc, '/' :: tl) := by
  unfold netlocSplit
  rw [if_pos (by simp)]
  have htake : (('/' :: '/' :: (netloc ++ '/' :: tl)).drop 2) = netloc ++ '/' :: tl := by
    simp
  rw [htake]
  have hall : ∀ ch ∈ netloc, (fun c => !netlocEnd c) ch = true := by
    intro ch hm
    simp [hN ch hm]
  rw [takeWhile_append_all _ hall, dropWhile_append_all _ hall,
    takeWhile_cons_neg _ (by simp [netlocEnd]), dropWhile_cons_neg _ (by simp [netlocEnd]),
    List.append_nil]

theorem netlocSplit_none {rest : List Char} (h : rest.take 2 ≠ ['/', '/']) :
    netlocSplit rest = ([], rest) := by
  unfold netlocSplit
  rw [if_neg h]

theorem schemeSplit_spec (u : List Char) :
    schemeSplit u = ([], u) ∨
    ∃ pre post, u = pre ++ ':' :: post ∧ validScheme pre = true ∧
      schemeSplit u = (pyLower pre, post) := by
  unfold schemeSplit
  cases hsp : splitAtFirstChar ':' u with
  | none => exact Or.inl rfl
  | some p =>
    obtain ⟨pre, post⟩ := p
    by_cases hv : validScheme pre = true
    · refine Or.inr ⟨pre, post, (splitAtFirstChar_eq hsp).1, hv, ?_⟩
      show (if validScheme pre = true then (pyLower pre, post) else ([], u)) = (pyLower pre, post)
      rw [if_pos hv]
    · refine Or.inl ?_
      show (if validScheme pre = true then (pyLower pre, post) else ([], u)) = ([], u)
      rw [if_neg hv]

theorem schemeSplit_fst_spec (u : List Char) :
    (schemeSplit u).1 = [] ∨
    (validScheme (schemeSplit u).1 = true ∧ pyLower (schemeSplit u).1 = (schemeSplit u).1) := by
  rcases schemeSplit_spec u with h | ⟨pre, post, _, hv, h⟩
  · rw [h]
    exact Or.inl rfl
  · rw [h]
    exact Or.inr ⟨pyLower_validScheme hv, pyLower_idem pre⟩

theorem mem_schemeSplit_snd {u : List Char} {ch : Char}
    (h : ch ∈ (schemeSplit u).2) : ch ∈ u := by
  rcases schemeSplit_spec u with h2 | ⟨pre, post, hu, _, h2⟩
  · rwa [h2] at h
  · rw [h2] at h
    rw [hu]
    simp [h]

theorem mem_urlsplitClean {u : List Char} {ch : Char} (h : ch ∈ urlsplitClean u) :
    tabCrLf ch = false := by
  unfold urlsplitClean at h
  rw [List.mem_filter] at h
  simpa using h.2

theorem netlocSplit_fst_facts {r : List Char} {ch : Char}
    (h : ch ∈ (netlocSplit r).1) : netlocEnd ch = false ∧ ch ∈ r := by
  unfold netlocSplit at h
  by_cases ht : r.take 2 = ['/', '/']
  · rw [if_pos ht] at h
    constructor
    · have := List.mem_takeWhile_imp h
      simpa using this
    · exact List.drop_subset 2 r ((List.takeWhile_prefix _).subset h)
  · rw [if_neg ht] at h
    simp at h

theorem netlocSplit_snd_mem {r : List Char} {ch : Char}
    (h : ch ∈ (netlocSplit r).2) : ch ∈ r := by
  unfold netlocSplit at h
  by_cases ht : r.take 2 = ['/', '/']
  · rw [if_pos ht] at h
    exact List.drop_subset 2 r ((List.dropWhile_suffix _).subset h)
  · rw [if_neg ht] at h
    exact h

theorem netlocSplit_snd_head {r : List Char} (hne : (netlocSplit r).1 ≠ []) :
    (netlocSplit r).2 = [] ∨
    ∃ hd tl, (netlocSplit r).2 = hd :: tl ∧ netlocEnd hd = true := by
  unfold netlocSplit at hne ⊢
  by_cases ht : r.take 2 = ['/', '/']
  · rw [if_pos ht]
    cases hd : (r.drop 2).dropWhile (fun c => !netlocEnd c) with
    | nil => exact Or.inl rfl
    | cons x xs =>
      refine Or.inr ⟨x, xs, rfl, ?_⟩
      have := dropWhile_head_not hd
      simpa using this
  · rw [if_neg ht] at hne
    exact absurd rfl hne

theorem pySplitOnce_nil (c : Char) : pySplitOnce c [] = ([], []) := rfl

theorem urlsplitE_ok_parts {u : List Char} {r : UrlSplitRes}
    (h : urlsplitE u = Except.ok r) :
    r.scheme = (schemeSplit (urlsplitClean u)).1 ∧
    r.netloc = (netlocSplit (schemeSplit (urlsplitClean u)).2).1 ∧
    ((r.netloc.contains '[' != r.netloc.contains ']') = false) ∧
    r.path = (pySplitOnce '?'
      (pySplitOnce '#' (netlocSplit (schemeSplit (urlsplitClean u)).2).2).1).1 ∧
    r.query = (pySplitOnce '?'
      (pySplitOnce '#' (netlocSplit (schemeSplit (urlsplitClean u)).2).2).1).2 ∧
    r.fragment = (pySplitOnce '#' (netlocSplit (schemeSplit (urlsplitClean u)).2).2).2 := by
  unfold urlsplitE urlsplitAfterNetloc at h
  by_cases hbr : ((netlocSplit (schemeSplit (urlsplitClean u)).2).1.contains '[' !=
      (netlocSplit (schemeSplit (urlsplitClean u)).2).1.contains ']') = true
  · rw [if_pos hbr] at h
    simp at h
  · rw [if_neg hbr] at h
    have hp : r = ⟨(schemeSplit (urlsplitClean u)).1,
        (netlocSplit (schemeSplit (urlsplitClean u)).2).1,
        (pySplitOnce '?'
          (pySplitOnce '#' (netlocSplit (schemeSplit (urlsplitClean u)).2).2).1).1,
        (pySplitOnce '?'
          (pySplitOnce '#' (netlocSplit (schemeSplit (urlsplitClean u)).2).2).1).2,
        (pySplitOnce '#' (netlocSplit (schemeSplit (urlsplitClean u)).2).2).2⟩ :=
      (Except.ok.inj h).symm
    subst hp
    refine ⟨rfl, rfl, ?_, rfl, rfl, rfl⟩
    simpa using hbr

theorem urlparseE_ok_parts {u : List Char} {p : UrlParseRes}
    (h : urlparseE u = Except.ok p) :
    ∃ r : UrlSplitRes, urlsplitE u = Except.ok r ∧
      p.scheme = r.scheme ∧ p.netloc = r.netloc ∧
      p.path = (splitparams r.path).1 ∧ p.params = (splitparams r.path).2 ∧
      p.query = r.query ∧ p.fragment = r.fragment := by
  unfold urlparseE at h
  cases hs : urlsplitE u with
  | error e =>
    rw [hs] at h
    simp at h
  | ok r =>
    rw [hs] at h
    refine ⟨r, rfl, ?_⟩
    have h3 : (⟨r.scheme, r.netloc,
        (if ';' ∈ r.path then splitparams r.path else (r.path, [])).1,
        (if ';' ∈ r.path then splitparams r.path else (r.path, [])).2,
        r.query, r.fragment⟩ : UrlParseRes) = p := Except.ok.inj h
    rw [← h3]
    refine ⟨rfl, rfl, ?_, ?_, rfl, rfl⟩
    · show (if ';' ∈ r.path then splitparams r.path else (r.path, [])).1 = (splitparams r.path).1
      rw [splitparams_ite]
    · show (if ';' ∈ r.path then splitparams r.path else (r.path, [])).2 = (splitparams r.path).2
      rw [splitparams_ite]

theorem urlsplitE_path_facts {u : List Char} {r : UrlSplitRes}
    (h : urlsplitE u = Except.ok r) :
    ∀ ch ∈ r.path, ch ≠ '#' ∧ ch ≠ '?' ∧ tabCrLf ch = false := by
  obtain ⟨_, _, _, rP, _, _⟩ := urlsplitE_ok_parts h
  intro ch hm
  rw [rP] at hm
  refine ⟨?_, ?_, ?_⟩
  · intro he
    subst he
    exact pySplitOnce_fst_not_mem '#' _ (pySplitOnce_mem_fst hm)
  · intro he
    subst he
    exact pySplitOnce_fst_not_mem '?' _ hm
  · exact mem_urlsplitClean (mem_schemeSplit_snd
      (netlocSplit_snd_mem (pySplitOnce_mem_fst (pySplitOnce_mem_fst hm))))

theorem urlsplitE_netloc_facts {u : List Char} {r : UrlSplitRes}
    (h : urlsplitE u = Except.ok r) :
    ∀ ch ∈ r.netloc, netlocEnd ch = false ∧ tabCrLf ch = false := by
  obtain ⟨_, rN, _, _, _, _⟩ := urlsplitE_ok_parts h
  intro ch hm
  rw [rN] at hm
  obtain ⟨h1, h2⟩ := netlocSplit_fst_facts hm
  exact ⟨h1, mem_urlsplitClean (mem_schemeSplit_snd h2)⟩

theorem urlsplitE_scheme_facts {u : List Char} {r : UrlSplitRes}
    (h : urlsplitE u = Except.ok r) :
    r.scheme = [] ∨ (validScheme r.scheme = true ∧ pyLower r.scheme = r.scheme) := by
  obtain ⟨rS, _, _, _, _, _⟩ := urlsplitE_ok_parts h
  rw [rS]
  exact schemeSplit_fst_spec _

theorem urlsplitE_netloc_path {u : List Char} {r : UrlSplitRes}
    (h : urlsplitE u = Except.ok r) (hnl : r.netloc ≠ []) :
    r.path = [] ∨ r.path.head? = some '/' := by
  obtain ⟨_, rN, _, rP, _, _⟩ := urlsplitE_ok_parts h
  by_cases hpne : r.path = []
  · exact Or.inl hpne
  right
  have hpm := urlsplitE_path_facts h
  rw [rP] at hpne ⊢
  rw [pySplitOnce_fst_head hpne]
  have hF1ne : (pySplitOnce '#' (netlocSplit (schemeSplit (urlsplitClean u)).2).2).1 ≠ [] := by
    intro he
    rw [he, pySplitOnce_nil] at hpne
    exact hpne rfl
  rw [pySplitOnce_fst_head hF1ne]
  rw [rN] at hnl
  rcases netlocSplit_snd_head hnl with h2 | ⟨hd, tl, h2, hend⟩
  · rw [h2, pySplitOnce_nil] at hF1ne
    exact absurd rfl hF1ne
  have hFhead : (pySplitOnce '#'
      (netlocSplit (schemeSplit (urlsplitClean u)).2).2).1.head? = some hd := by
    rw [pySplitOnce_fst_head hF1ne, h2]
    rfl
  have hdF : hd ∈ r.path := by
    rw [rP]
    cases hc : (pySplitOnce '?' (pySplitOnce '#'
        (netlocSplit (schemeSplit (urlsplitClean u)).2).2).1).1 with
    | nil => exact absurd hc hpne
    | cons a as =>
      have hQhead : List.head? (a :: as) = some hd := by
        rw [← hc, pySplitOnce_fst_head hpne]
        exact hFhead
      have ha : a = hd := by simpa using hQhead
      rw [ha]
      exact List.mem_cons_self hd as
  obtain ⟨hdne1, hdne2, _⟩ := hpm hd hdF
  have hdsl : hd = '/' := by
    rcases netlocEnd_iff.1 hend with h47 | h63 | h35
    · exact char_toNat_inj (h47.trans (by decide))
    · exact absurd (char_toNat_inj (h63.trans (by decide))) hdne2
    · exact absurd (char_toNat_inj (h35.trans (by decide))) hdne1
  rw [h2, hdsl]
  rfl

theorem urlparseE_netloc_brackets {u : List Char} {p : UrlParseRes}
    (h : urlparseE u = Except.ok p) :
    (p.netloc.contains '[' != p.netloc.contains ']') = false := by
  obtain ⟨r, hr, _, hN, _⟩ := urlparseE_ok_parts h
  obtain ⟨_, _, rBr, _⟩ := urlsplitE_ok_parts hr
  rw [hN]
  exact rBr

theorem filterTracking_idem (q : List (List Char × List Char)) :
    filterTracking (filterTracking q) = filterTracking q := by
  unfold filterTracking
  rw [List.filter_filter]
  apply List.filter_congr
  intro kv _
  rw [Bool.and_self]

theorem take_two_append_ne {R : List Char} {c : Char} (Q : List Char) (hR : R ≠ [])
    (h : R.take 2 ≠ ['/', '/']) (hc : c ≠ '/') :
    (R ++ c :: Q).take 2 ≠ ['/', '/'] := by
  cases R with
  | nil => exact absurd rfl hR
  | cons a tl =>
    cases tl with
    | nil =>
      intro he
      simp [List.take] at he
      exact hc he.2
    | cons b tl2 =>
      intro he
      apply h
      simp [List.take] at he ⊢
      exact he

theorem urlunsplit_forms (scheme netloc url query : List Char) (hs : scheme ≠ []) :
    urlunsplit scheme netloc url query [] =
      scheme ++ ':' ::
        ((if netloc ≠ [] ∨
              (scheme ≠ [] ∧ uses_netloc.contains scheme = true ∧ url.take 2 ≠ ['/', '/'])
            then '/' :: '/' :: (netloc ++
              (if url ≠ [] ∧ url.take 1 ≠ ['/'] then '/' :: url else url))
            else url) ++
          (if query ≠ [] then '?' :: query else [])) := by
  simp only [urlunsplit]
  rw [if_neg (by simp)]
  by_cases hq : query ≠ []
  · rw [if_pos hq, if_pos hs, if_pos hq]
    simp
  · rw [if_neg hq, if_pos hs, if_neg hq]
    simp

theorem urlsplitE_reassembled {scheme rest : List Char}
    (hS : validScheme scheme = true) (hlow : pyLower scheme = scheme)
    (hrest : ∀ ch ∈ rest, tabCrLf ch = false)
    (hbr : (((netlocSplit rest).1).contains '[' != ((netlocSplit rest).1).contains ']')
      = false) :
    urlsplitE (scheme ++ ':' :: rest) = Except.ok
      ⟨scheme, (netlocSplit rest).1,
       (pySplitOnce '?' (pySplitOnce '#' (netlocSplit rest).2).1).1,
       (pySplitOnce '?' (pySplitOnce '#' (netlocSplit rest).2).1).2,
       (pySplitOnce '#' (netlocSplit rest).2).2⟩ := by
  unfold urlsplitE
  rw [urlsplitClean_reassembled hS hrest, schemeSplit_reassembled rest hS hlow]
  show urlsplitAfterNetloc scheme (netlocSplit rest) = _
  unfold urlsplitAfterNetloc
  rw [if_neg (by rw [hbr]; exact Bool.false_ne_true)]

theorem urlparseE_of_urlsplitE {u : List Char} {r : UrlSplitRes}
    (h : urlsplitE u = Except.ok r) :
    urlparseE u = Except.ok ⟨r.scheme, r.netloc, (splitparams r.path).1,
      (splitparams r.path).2, r.query, r.fragment⟩ := by
  unfold urlparseE
  rw [h]
  show Except.ok (⟨r.scheme, r.netloc,
      (if ';' ∈ r.path then splitparams r.path else (r.path, [])).1,
      (if ';' ∈ r.path then splitparams r.path else (r.path, [])).2,
      r.query, r.fragment⟩ : UrlParseRes) = _
  rw [splitparams_ite]

theorem urlparseE_assembled {S BODY N REST2 PP P2 M2 Q2 : List Char}
    (hSv : validScheme S = true) (hSl : pyLower S = S)
    (htab : ∀ ch ∈ BODY, tabCrLf ch = false)
    (hnet : netlocSplit BODY = (N, REST2))
    (hbr : (N.contains '[' != N.contains ']') = false)
    (hhash : '#' ∉ REST2)
    (hquery : pySplitOnce '?' REST2 = (PP, Q2))
    (hsp : splitparams PP = (P2, M2)) :
    urlparseE (S ++ ':' :: BODY) = Except.ok ⟨S, N, P2, M2, Q2, []⟩ := by
  have h1 := urlsplitE_reassembled hSv hSl htab (by rw [hnet]; exact hbr)
  have h2 := urlparseE_of_urlsplitE h1
  rw [h2]
  simp only [hnet, pySplitOnce_not_mem hhash, hquery, hsp]

theorem normalizeFromParts_literal (S N P2 M2 Q : List Char)
    (hSne : S ≠ []) (hSl : pyLower S = S) (hNl : pyLower N = N) (hP2 : P2 ≠ [])
    (hQs : urlencode (filterTracking (parse_qsl Q)) = Q) :
    normalizeFromParts ⟨S, N, P2, M2, Q, []⟩ =
      urlunsplit S N (recombineParams P2 M2) Q [] := by
  show urlunparse (pyLower (if S = [] then ("https").data else S)) (pyLower N)
      (if P2 = [] then ['/'] else P2) M2
      (urlencode (filterTracking (parse_qsl Q))) [] = _
  rw [if_neg hSne, hSl, hNl, if_neg hP2, hQs, urlunparse_recombine]

/-- Everything the idempotence proof needs to know about a successful
urlparse result. -/
theorem urlparseE_ok_facts {u : List Char} {p : UrlParseRes}
    (h : urlparseE u = Except.ok p) :
    (p.scheme = [] ∨ (validScheme p.scheme = true ∧ pyLower p.scheme = p.scheme)) ∧
    (∀ ch ∈ p.netloc, netlocEnd ch = false ∧ tabCrLf ch = false) ∧
    (∀ ch ∈ p.path, ch ≠ '#' ∧ ch ≠ '?' ∧ tabCrLf ch = false) ∧
    (∀ ch ∈ p.params, ch ≠ '#' ∧ ch ≠ '?' ∧ tabCrLf ch = false) ∧
    SPGood p.path p.params ∧
    (p.netloc ≠ [] → p.path = [] ∨ p.path.head? = some '/') := by
  obtain ⟨r, hr, hS, hN, hP, hM, hQ, hF⟩ := urlparseE_ok_parts h
  have hpm := urlsplitE_path_facts hr
  refine ⟨?_, ?_, ?_, ?_, ?_, ?_⟩
  · rw [hS]
    exact urlsplitE_scheme_facts hr
  · intro ch hm
    rw [hN] at hm
    exact urlsplitE_netloc_facts hr ch hm
  · intro ch hm
    rw [hP] at hm
    exact hpm ch (mem_splitparams.1 hm)
  · intro ch hm
    rw [hM] at hm
    exact hpm ch (mem_splitparams.2 hm)
  · rw [hP, hM]
    exact splitparams_good _
  · intro hnl
    rw [hN] at hnl
    rcases urlsplitE_netloc_path hr hnl with hrp | hrp
    · left
      rw [hP, hrp, splitparams_no_semi (by simp)]
    · by_cases hpne : p.path = []
      · exact Or.inl hpne
      right
      rw [hP] at hpne ⊢
      rw [splitparams_fst_head hpne]
      exact hrp

/-- Core idempotence: a URL reassembled by normalize_url from components
with the invariants that a successful parse guarantees re-normalizes to
itself, provided stripping fixes it and the empty-netloc/'//'-path
collapse is excluded. -/
theorem reassembled_idem {S N PATH M Q R : List Char}
    (hSv : validScheme S = true) (hSl : pyLower S = S)
    (hNf : ∀ ch ∈ N, netlocEnd ch = false ∧ tabCrLf ch = false)
    (hNl : pyLower N = N)
    (hNbr : (N.contains '[' != N.contains ']') = false)
    (hPf : ∀ ch ∈ PATH, ch ≠ '#' ∧ ch ≠ '?' ∧ tabCrLf ch = false)
    (hMf : ∀ ch ∈ M, ch ≠ '#' ∧ ch ≠ '?' ∧ tabCrLf ch = false)
    (hPne : PATH ≠ [])
    (hGood : SPGood PATH M)
    (hNP : N ≠ [] → PATH.head? = some '/')
    (hQe : ∃ q0, Q = urlencode (filterTracking q0))
    (hrec : recombineParams PATH M = R)
    (hcol : ¬(N = [] ∧ R.take 2 = ['/', '/']))
    (hstrip : pyStrip (urlunsplit S N R Q []) = urlunsplit S N R Q []) :
    normalize_url (urlunsplit S N R Q []) = urlunsplit S N R Q [] := by
  have hRne : R ≠ [] := hrec ▸ recombineParams_ne_nil hPne
  have hsplitR : splitparams R = (PATH, M) := hrec ▸ splitparams_recombine_good hGood
  have hRhead : R.head? = PATH.head? := hrec ▸ recombineParams_head hPne
  have hRf : ∀ ch ∈ R, ch ≠ '#' ∧ ch ≠ '?' ∧ tabCrLf ch = false := by
    intro ch hm
    rw [← hrec] at hm
    rcases mem_recombineParams hm with hx | hx | hx
    · exact hPf ch hx
    · subst hx
      exact ⟨by decide, by decide, by decide⟩
    · exact hMf ch hx
  have hSne : S ≠ [] := validScheme_ne_nil hSv
  have hQf : ∀ ch ∈ Q, ch ≠ '#' ∧ ch ≠ '?' ∧ tabCrLf ch = false := by
    obtain ⟨q0, hq0⟩ := hQe
    intro ch hm
    rw [hq0] at hm
    obtain ⟨hh1, hh2, hh3, _, _⟩ := mem_urlencode_facts hm
    exact ⟨hh1, hh2, by simpa using hh3⟩
  have hQstable : urlencode (filterTracking (parse_qsl Q)) = Q := by
    obtain ⟨q0, hq0⟩ := hQe
    rw [hq0, parse_qsl_urlencode, filterTracking_idem]
  have hqtail : ∀ X : List Char, '?' ∉ X →
      pySplitOnce '?' (X ++ (if Q ≠ [] then '?' :: Q else [])) = (X, Q) := by
    intro X hX
    by_cases hQn : Q = []
    · rw [if_neg (by simp [hQn]), List.append_nil, pySplitOnce_not_mem hX, hQn]
    · rw [if_pos hQn]
      exact pySplitOnce_append Q hX
  have hqtailmem : ∀ ch ∈ (if Q ≠ [] then '?' :: Q else ([] : List Char)),
      ch ≠ '#' ∧ tabCrLf ch = false := by
    by_cases hQn : Q = []
    · rw [if_neg (by simp [hQn])]
      intro ch hm
      simp at hm
    · rw [if_pos hQn]
      intro ch hm
      rcases List.mem_cons.1 hm with rfl | hm2
      · exact ⟨by decide, by decide⟩
      · exact ⟨(hQf ch hm2).1, (hQf ch hm2).2.2⟩
  have hform := urlunsplit_forms S N R Q hSne
  rw [hform] at hstrip ⊢
  by_cases hn : N = []
  · subst hn
    have hR2 : R.take 2 ≠ ['/', '/'] := fun h2 => hcol ⟨rfl, h2⟩
    by_cases huse : uses_netloc.contains S = true
    · have hC : ([] : List Char) ≠ [] ∨
          (S ≠ [] ∧ uses_netloc.contains S = true ∧ R.take 2 ≠ ['/', '/']) :=
        Or.inr ⟨hSne, huse, hR2⟩
      by_cases ht1 : R.take 1 = ['/']
      · -- scheme with netloc-style path already starting '/'
        obtain ⟨tl, hRtl⟩ : ∃ tl, R = '/' :: tl := by
          cases R with
          | nil => exact absurd rfl hRne
          | cons c tl =>
            have hc : c = '/' := by simpa [List.take] using ht1
            exact ⟨tl, by rw [hc]⟩
        have hInner : ¬(R ≠ [] ∧ R.take 1 ≠ ['/']) := fun hand => hand.2 ht1
        rw [if_pos hC, if_neg hInner] at hstrip ⊢
        have hshape : ('/' :: '/' :: (([] : List Char) ++ R)) ++
            (if Q ≠ [] then '?' :: Q else []) =
            '/' :: '/' :: (([] : List Char) ++
              ('/' :: (tl ++ (if Q ≠ [] then '?' :: Q else [])))) := by
          rw [hRtl]
          simp
        have hnet : netlocSplit (('/' :: '/' :: (([] : List Char) ++ R)) ++
            (if Q ≠ [] then '?' :: Q else [])) =
            ([], R ++ (if Q ≠ [] then '?' :: Q else [])) := by
          rw [hshape, netlocSplit_double (fun ch hm => absurd hm (by simp)), hRtl]
          simp
        have hhash : '#' ∉ R ++ (if Q ≠ [] then '?' :: Q else []) := by
          intro hm
          rcases List.mem_append.1 hm with hm | hm
          · exact (hRf _ hm).1 rfl
          · exact (hqtailmem _ hm).1 rfl
        have hquery := hqtail R (fun hm => (hRf _ hm).2.1 rfl)
        have htab : ∀ ch ∈ ('/' :: '/' :: (([] : List Char) ++ R)) ++
            (if Q ≠ [] then '?' :: Q else []), tabCrLf ch = false := by
          intro ch hm
          rcases List.mem_append.1 hm with hm | hm
          · rcases List.mem_cons.1 hm with rfl | hm
            · decide
            rcases List.mem_cons.1 hm with rfl | hm
            · decide
            rw [List.nil_append] at hm
            exact (hRf ch hm).2.2
          · exact (hqtailmem ch hm).2
        have hparse := urlparseE_assembled hSv hSl htab hnet hNbr hhash hquery hsplitR
        unfold normalize_url
        rw [if_neg (by simp), hstrip, hparse]
        show normalizeFromParts ⟨S, [], PATH, M, Q, []⟩ = _
        rw [normalizeFromParts_literal S [] PATH M Q hSne hSl rfl hPne hQstable, hrec,
          hform, if_pos hC, if_neg hInner]
      · -- scheme with path not starting '/': an extra '/' is inserted
        have hInner : R ≠ [] ∧ R.take 1 ≠ ['/'] := ⟨hRne, ht1⟩
        rw [if_pos hC, if_pos hInner] at hstrip ⊢
        have hshape : ('/' :: '/' :: (([] : List Char) ++ '/' :: R)) ++
            (if Q ≠ [] then '?' :: Q else []) =
            '/' :: '/' :: (([] : List Char) ++
              ('/' :: (R ++ (if Q ≠ [] then '?' :: Q else [])))) := by
          simp
        have hnet : netlocSplit (('/' :: '/' :: (([] : List Char) ++ '/' :: R)) ++
            (if Q ≠ [] then '?' :: Q else [])) =
            ([], ('/' :: R) ++ (if Q ≠ [] then '?' :: Q else [])) := by
          rw [hshape, netlocSplit_double (fun ch hm => absurd hm (by simp))]
          simp
        have hhash : '#' ∉ ('/' :: R) ++ (if Q ≠ [] then '?' :: Q else []) := by
          intro hm
          rcases List.mem_append.1 hm with hm | hm
          · rcases List.mem_cons.1 hm with he | hm2
            · exact absurd he (by decide)
            · exact (hRf _ hm2).1 rfl
          · exact (hqtailmem _ hm).1 rfl
        have hquery : pySplitOnce '?' (('/' :: R) ++ (if Q ≠ [] then '?' :: Q else [])) =
            ('/' :: R, Q) := by
          apply hqtail
          intro hm
          rcases List.mem_cons.1 hm with he | hm2
          · exact absurd he (by decide)
          · exact (hRf _ hm2).2.1 rfl
        have hsp : splitparams ('/' :: R) = ('/' :: PATH, M) := by
          have hcr : '/' :: R = recombineParams ('/' :: PATH) M := by
            rw [recombine_cons_slash, hrec]
          rw [hcr, splitparams_recombine_good (SPGood_cons_slash hGood)]
        have htab : ∀ ch ∈ ('/' :: '/' :: (([] : List Char) ++ '/' :: R)) ++
            (if Q ≠ [] then '?' :: Q else []), tabCrLf ch = false := by
          intro ch hm
          rcases List.mem_append.1 hm with hm | hm
          · rcases List.mem_cons.1 hm with rfl | hm
            · decide
            rcases List.mem_cons.1 hm with rfl | hm
            · decide
            rw [List.nil_append] at hm
            rcases List.mem_cons.1 hm with rfl | hm
            · decide
            exact (hRf ch hm).2.2
          · exact (hqtailmem ch hm).2
        have hparse := urlparseE_assembled hSv hSl htab hnet hNbr hhash hquery hsp
        unfold normalize_url
        rw [if_neg (by simp), hstrip, hparse]
        show normalizeFromParts ⟨S, [], '/' :: PATH, M, Q, []⟩ = _
        rw [normalizeFromParts_literal S [] ('/' :: PATH) M Q hSne hSl rfl (by simp)
          hQstable, recombine_cons_slash, hrec]
        have hC2 : ([] : List Char) ≠ [] ∨
            (S ≠ [] ∧ uses_netloc.contains S = true ∧ ('/' :: R).take 2 ≠ ['/', '/']) := by
          refine Or.inr ⟨hSne, huse, ?_⟩
          intro he
          apply ht1
          cases R with
          | nil => exact absurd rfl hRne
          | cons a tl =>
            simp [List.take] at he ⊢
            exact he
        have hInner2 : ¬('/' :: R ≠ [] ∧ ('/' :: R).take 1 ≠ ['/']) := by
          intro hand
          exact hand.2 (by simp [List.take])
        rw [urlunsplit_forms S [] ('/' :: R) Q hSne, if_pos hC2, if_neg hInner2]
    · -- scheme not in uses_netloc: path kept verbatim
      have hC : ¬(([] : List Char) ≠ [] ∨
          (S ≠ [] ∧ uses_netloc.contains S = true ∧ R.take 2 ≠ ['/', '/'])) := by
        rintro (h | ⟨_, h2, _⟩)
        · exact h rfl
        · exact huse h2
      rw [if_neg hC] at hstrip ⊢
      have hnet : netlocSplit (R ++ (if Q ≠ [] then '?' :: Q else [])) =
          ([], R ++ (if Q ≠ [] then '?' :: Q else [])) := by
        apply netlocSplit_none
        by_cases hQn : Q = []
        · rw [if_neg (by simp [hQn]), List.append_nil]
          exact hR2
        · rw [if_pos hQn]
          exact take_two_append_ne Q hRne hR2 (by decide)
      have hhash : '#' ∉ R ++ (if Q ≠ [] then '?' :: Q else []) := by
        intro hm
        rcases List.mem_append.1 hm with hm | hm
        · exact (hRf _ hm).1 rfl
        · exact (hqtailmem _ hm).1 rfl
      have hquery := hqtail R (fun hm => (hRf _ hm).2.1 rfl)
      have htab : ∀ ch ∈ R ++ (if Q ≠ [] then '?' :: Q else []), tabCrLf ch = false := by
        intro ch hm
        rcases List.mem_append.1 hm with hm | hm
        · exact (hRf ch hm).2.2
        · exact (hqtailmem ch hm).2
      have hparse := urlparseE_assembled hSv hSl htab hnet hNbr hhash hquery hsplitR
      unfold normalize_url
      rw [if_neg (by simp), hstrip, hparse]
      show normalizeFromParts ⟨S, [], PATH, M, Q, []⟩ = _
      rw [normalizeFromParts_literal S [] PATH M Q hSne hSl rfl hPne hQstable, hrec,
        hform, if_neg hC]
  · -- nonempty netloc
    have hC : N ≠ [] ∨
        (S ≠ [] ∧ uses_netloc.contains S = true ∧ R.take 2 ≠ ['/', '/']) := Or.inl hn
    have hPh := hNP hn
    have hRh : R.head? = some '/' := hRhead.trans hPh
    obtain ⟨tl, hRtl⟩ : ∃ tl, R = '/' :: tl := by
      cases R with
      | nil => exact absurd rfl hRne
      | cons c tl =>
        have hc : c = '/' := by simpa using hRh
        exact ⟨tl, by rw [hc]⟩
    have hInner : ¬(R ≠ [] ∧ R.take 1 ≠ ['/']) := fun hand => hand.2 (by rw [hRtl]; rfl)
    rw [if_pos hC, if_neg hInner] at hstrip ⊢
    have hshape : ('/' :: '/' :: (N ++ R)) ++ (if Q ≠ [] then '?' :: Q else []) =
        '/' :: '/' :: (N ++ ('/' :: (tl ++ (if Q ≠ [] then '?' :: Q else [])))) := by
      rw [hRtl]
      simp
    have hnet : netlocSplit (('/' :: '/' :: (N ++ R)) ++
        (if Q ≠ [] then '?' :: Q else [])) =
        (N, R ++ (if Q ≠ [] then '?' :: Q else [])) := by
      rw [hshape, netlocSplit_double (fun ch hm => (hNf ch hm).1), hRtl]
      simp
    have hhash : '#' ∉ R ++ (if Q ≠ [] then '?' :: Q else []) := by
      intro hm
      rcases List.mem_append.1 hm with hm | hm
      · exact (hRf _ hm).1 rfl
      · exact (hqtailmem _ hm).1 rfl
    have hquery := hqtail R (fun hm => (hRf _ hm).2.1 rfl)
    have htab : ∀ ch ∈ ('/' :: '/' :: (N ++ R)) ++
        (if Q ≠ [] then '?' :: Q else []), tabCrLf ch = false := by
      intro ch hm
      rcases List.mem_append.1 hm with hm | hm
      · rcases List.mem_cons.1 hm with rfl | hm
        · decide
        rcases List.mem_cons.1 hm with rfl | hm
        · decide
        rcases List.mem_append.1 hm with hm | hm
        · exact (hNf ch hm).2
        · exact (hRf ch hm).2.2
      · exact (hqtailmem ch hm).2
    have hparse := urlparseE_assembled hSv hSl htab hnet hNbr hhash hquery hsplitR
    unfold normalize_url
    rw [if_neg (by simp), hstrip, hparse]
    show normalizeFromParts ⟨S, N, PATH, M, Q, []⟩ = _
    rw [normalizeFromParts_literal S N PATH M Q hSne hSl hNl hPne hQstable, hrec,
      hform, if_pos hC, if_neg hInner]

/-- Amended idempotence of normalize_url: idempotent whenever the output
is strip-fixed and the empty-netloc/'//'-path collapse does not occur. -/
theorem normalize_url_idem (u : List Char)
    (h1 : pyStrip (normalize_url u) = normalize_url u)
    (h2 : collapsesDoubleSlash u = false) :
    normalize_url (normalize_url u) = normalize_url u := by
  by_cases hu : u = []
  · subst hu
    have h0 : normalize_url [] = [] := by
      unfold normalize_url
      rw [if_pos rfl]
    rw [h0, h0]
  · cases hp : urlparseE (pyStrip u) with
    | error e =>
      have hnu : normalize_url u = pyStrip u := by
        unfold normalize_url
        rw [if_neg hu, hp]
      rw [hnu]
      by_cases hsu : pyStrip u = []
      · rw [hsu]
        unfold normalize_url
        rw [if_pos rfl]
      · unfold normalize_url
        rw [if_neg hsu, pyStrip_idem, hp]
    | ok p =>
      have hnu : normalize_url u = normalizeFromParts p := by
        unfold normalize_url
        rw [if_neg hu, hp]
      obtain ⟨hSc, hNlf, hPaf, hMaf, hGood, hNlPath⟩ := urlparseE_ok_facts hp
      have hbrk := urlparseE_netloc_brackets hp
      have hSv : validScheme
          (pyLower (if p.scheme = [] then ("https").data else p.scheme)) = true := by
        rcases hSc with hnil | ⟨hv, _⟩
        · rw [if_pos hnil]
          decide
        · rw [if_neg (validScheme_ne_nil hv)]
          exact pyLower_validScheme hv
      have hNf : ∀ ch ∈ pyLower p.netloc, netlocEnd ch = false ∧ tabCrLf ch = false := by
        intro ch hm
        unfold pyLower at hm
        obtain ⟨c, hc, rfl⟩ := List.mem_map.1 hm
        exact pyLowerChar_classFree (hNlf c hc).1 (hNlf c hc).2
      have hNbr : ((pyLower p.netloc).contains '[' !=
          (pyLower p.netloc).contains ']') = false := by
        rw [@pyLower_contains_eq '[' (by decide) p.netloc,
          @pyLower_contains_eq ']' (by decide) p.netloc]
        exact hbrk
      have hPf : ∀ ch ∈ (if p.path = [] then ['/'] else p.path),
          ch ≠ '#' ∧ ch ≠ '?' ∧ tabCrLf ch = false := by
        by_cases hpp : p.path = []
        · rw [if_pos hpp]
          intro ch hm
          rw [List.mem_singleton] at hm
          subst hm
          exact ⟨by decide, by decide, by decide⟩
        · rw [if_neg hpp]
          exact hPaf
      have hPne : (if p.path = [] then ['/'] else p.path) ≠ [] := by
        by_cases hpp : p.path = []
        · rw [if_pos hpp]
          simp
        · rw [if_neg hpp]
          exact hpp
      have hNP : pyLower p.netloc ≠ [] →
          (if p.path = [] then ['/'] else p.path).head? = some '/' := by
        intro hne
        have hnl : p.netloc ≠ [] := by
          intro he
          apply hne
          rw [he]
          rfl
        rcases hNlPath hnl with hpe | hph
        · rw [if_pos hpe]
          rfl
        · have hpne2 : p.path ≠ [] := by
            intro he
            rw [he] at hph
            simp at hph
          rw [if_neg hpne2]
          exact hph
      have hcol : ¬(pyLower p.netloc = [] ∧
          (recombineParams (if p.path = [] then ['/'] else p.path) p.params).take 2
            = ['/', '/']) := by
        rintro ⟨hne, htake⟩
        have hcd : collapsesDoubleSlash u = true := by
          unfold collapsesDoubleSlash
          rw [hp]
          have hnl : p.netloc = [] := (pyLower_eq_nil_iff p.netloc).1 hne
          simp [hnl, htake]
        rw [h2] at hcd
        exact absurd hcd (by decide)
      have hnf : normalizeFromParts p =
          urlunsplit (pyLower (if p.scheme = [] then ("https").data else p.scheme))
            (pyLower p.netloc)
            (recombineParams (if p.path = [] then ['/'] else p.path) p.params)
            (urlencode (filterTracking (parse_qsl p.query))) [] := by
        unfold normalizeFromParts
        rw [urlunparse_recombine]
      rw [hnu, hnf] at h1 ⊢
      exact reassembled_idem hSv (pyLower_idem _) hNf (pyLower_idem _) hNbr hPf hMaf
        hPne (SPGood_default hGood) hNP ⟨parse_qsl p.query, rfl⟩ rfl hcol h1

/-! ### The brand-guideline checker: claim support -/

theorem mem_ite_singleton {α : Type} {c : Prop} [Decidable c] {x v : α}
    (h : v ∈ (if c then [x] else [])) : v = x := by
  split at h
  · simpa using h
  · simp at h

theorem check_issues_eq (values : List PyJson) (now : List Char) :
    (check_brand_guidelines values now).issues =
      ((FORBIDDEN_TERMS.filter
          (fun t => occursIn (pyLower t) (pyLower (allText values)))).map forbiddenViolation ++
        (if occursIn (("www.brite.co").data) (allText values) = true
          then [wwwViolation] else []) ++
        (if (occursIn (("lab grown").data) (pyLower (allText values)) &&
            !occursIn (("lab-grown").data) (allText values)) = true
          then [labViolation] else [])) := rfl

theorem check_warnings_eq (values : List PyJson) (now : List Char) :
    (check_brand_guidelines values now).warnings =
      ((GENDERED_TERMS.filter
          (fun t => occursIn (pyLower t) (pyLower (allText values)))).map genderedViolation ++
        (if hasSerialComma (allText values) = true then [serialCommaWarning] else [])) := rfl

theorem check_passed_eq (values : List PyJson) (now : List Char) :
    (check_brand_guidelines values now).passed =
      ((check_brand_guidelines values now).issues.length == 0) := rfl

theorem check_issue_severity (values : List PyJson) (now : List Char) :
    ∀ v ∈ (check_brand_guidelines values now).issues, v.severity = ("error").data := by
  rw [check_issues_eq]
  intro v hm
  rcases List.mem_append.1 hm with hm | hm
  · rcases List.mem_append.1 hm with hm | hm
    · obtain ⟨t, _, rfl⟩ := List.mem_map.1 hm
      rfl
    · rw [mem_ite_singleton hm]
      rfl
  · rw [mem_ite_singleton hm]
    rfl

theorem check_warning_severity (values : List PyJson) (now : List Char) :
    ∀ v ∈ (check_brand_guidelines values now).warnings,
      v.severity = ("warning").data := by
  rw [check_warnings_eq]
  intro v hm
  rcases List.mem_append.1 hm with hm | hm
  · obtain ⟨t, _, rfl⟩ := List.mem_map.1 hm
    rfl
  · rw [mem_ite_singleton hm]
    rfl

/-- C1: the report passes exactly when it carries no error-severity
violation among its issues and warnings; warning-severity violations
never affect `passed`. -/
theorem claim_C1 (values : List PyJson) (now : List Char) :
    (check_brand_guidelines values now).passed = true ↔
      ((check_brand_guidelines values now).issues ++
          (check_brand_guidelines values now).warnings).countP
        (fun v => v.severity == ("error").data) = 0 := by
  rw [List.countP_append]
  have hA : ((check_brand_guidelines values now).issues).countP
      (fun v => v.severity == ("error").data) =
      ((check_brand_guidelines values now).issues).length := by
    apply List.countP_eq_length.2
    intro v hv
    rw [check_issue_severity values now v hv]
    decide
  have hW : ((check_brand_guidelines values now).warnings).countP
      (fun v => v.severity == ("error").data) = 0 := by
    apply List.countP_eq_zero.2
    intro v hv
    rw [check_warning_severity values now v hv]
    decide
  rw [hA, hW, check_passed_eq]
  simp

theorem count_filter_of_pos {α : Type} [DecidableEq α] (p : α → Bool) (a : α) (l : List α)
    (h : p a = true) : (l.filter p).count a = l.count a :=
  List.count_filter h

theorem forbiddenViolation_injective : Function.Injective forbiddenViolation := by
  intro a b h
  have h2 := congrArg Violation.issue h
  simp only [forbiddenViolation] at h2
  have h3 := List.append_cancel_left h2
  rw [List.cons.injEq] at h3
  exact List.append_cancel_right h3.2

/-- C2 (amended): a forbidden term occurring case-insensitively in the
joined text yields exactly one error violation for that term, but its
suggestion is the fixed string "Use approved terminology instead", not a
lookup in the required-substitution mapping; the concrete scenario
yields that error for "insurance company" and a gendered-term warning
for "bride and groom" whose suggestion is the looked-up neutral
replacement. -/
theorem claim_C2 (values : List PyJson) (now : List Char) (t : List Char)
    (ht : t ∈ FORBIDDEN_TERMS)
    (hocc : occursIn (pyLower t) (pyLower (allText values)) = true) :
    (check_brand_guidelines values now).issues.count (forbiddenViolation t) = 1 ∧
    (forbiddenViolation t).suggestion = ("Use approved terminology instead").data ∧
    forbiddenViolation (("insurance company").data) ∈
      (check_brand_guidelines
        [PyJson.str ("Our insurance company helps the bride and groom").data] now).issues ∧
    genderedViolation (("bride and groom").data) ∈
      (check_brand_guidelines
        [PyJson.str ("Our insurance company helps the bride and groom").data] now).warnings ∧
    (genderedViolation (("bride and groom").data)).suggestion =
      ("Consider using: ").data ++ ("partner").data := by
  refine ⟨?_, rfl, ?_, ?_, by decide⟩
  · rw [check_issues_eq, List.count_append, List.count_append]
    have hB : (if occursIn (("www.brite.co").data) (allText values) = true
        then [wwwViolation] else []).count (forbiddenViolation t) = 0 := by
      rw [List.count_eq_zero]
      intro hmem
      have he := congrArg Violation.suggestion (mem_ite_singleton hmem)
      rw [show (forbiddenViolation t).suggestion =
        ("Use approved terminology instead").data from rfl] at he
      revert he
      decide
    have hC : (if (occursIn (("lab grown").data) (pyLower (allText values)) &&
          !occursIn (("lab-grown").data) (allText values)) = true
        then [labViolation] else []).count (forbiddenViolation t) = 0 := by
      rw [List.count_eq_zero]
      intro hmem
      have he := congrArg Violation.suggestion (mem_ite_singleton hmem)
      rw [show (forbiddenViolation t).suggestion =
        ("Use approved terminology instead").data from rfl] at he
      revert he
      decide
    rw [hB, hC, List.count_map_of_injective _ forbiddenViolation forbiddenViolation_injective,
      count_filter_of_pos (fun s => occursIn (pyLower s) (pyLower (allText values))) t
        FORBIDDEN_TERMS hocc]
    have ht5 : t = ("insurance company").data ∨ t = ("specialized jewelry insurance").data ∨
        t = ("AM Best policies").data ∨ t = ("we are AM Best").data ∨
        t = ("www.brite.co").data := by
      simpa [FORBIDDEN_TERMS] using ht
    rcases ht5 with rfl | rfl | rfl | rfl | rfl <;> decide
  · rw [check_issues_eq]
    decide
  · rw [check_warnings_eq]
    decide

/-- C2 witness: the amended theorem applied to the claim's concrete
scenario. -/
theorem claim_C2_witness :
    (check_brand_guidelines
        [PyJson.str ("Our insurance company helps the bride and groom").data] []).issues.count
      (forbiddenViolation (("insurance company").data)) = 1 :=
  (claim_C2 [PyJson.str ("Our insurance company helps the bride and groom").data] []
    (("insurance company").data) (by decide) (by decide)).1

/-- C2 counterexample: on the claim's own scenario the only error
violation carries the fixed suggestion "Use approved terminology
instead", not "insurtech company" or "insurance provider" as the claim
requires. -/
theorem claim_C2_counterexample :
    (check_brand_guidelines
        [PyJson.str ("Our insurance company helps the bride and groom").data] []).issues =
      [forbiddenViolation (("insurance company").data)] ∧
    (forbiddenViolation (("insurance company").data)).suggestion =
      ("Use approved terminology instead").data ∧
    (forbiddenViolation (("insurance company").data)).suggestion ≠
      ("insurtech company").data ∧
    (forbiddenViolation (("insurance company").data)).suggestion ≠
      ("insurance provider").data := by
  decide

/-- C7 (amended): the checker is deterministic in (content, timestamp)
and every report field except `checked_at` depends only on the content;
but `checked_at` embeds the clock value, so two invocations at
different times return different reports (see the counterexample). -/
theorem claim_C7 (values : List PyJson) (now1 now2 : List Char) :
    (check_brand_guidelines values now1).passed = (check_brand_guidelines values now2).passed ∧
    (check_brand_guidelines values now1).total_issues =
      (check_brand_guidelines values now2).total_issues ∧
    (check_brand_guidelines values now1).total_warnings =
      (check_brand_guidelines values now2).total_warnings ∧
    (check_brand_guidelines values now1).issues = (check_brand_guidelines values now2).issues ∧
    (check_brand_guidelines values now1).warnings =
      (check_brand_guidelines values now2).warnings ∧
    (check_brand_guidelines values now1).checked_at = now1 :=
  ⟨rfl, rfl, rfl, rfl, rfl, rfl⟩

/-- C7 counterexample: identical content checked at two different clock
readings gives two different reports, refuting strict determinism of
the returned value. -/
theorem claim_C7_counterexample :
    check_brand_guidelines [] (("2024-01-01T00:00:00").data) ≠
      check_brand_guidelines [] (("2024-01-01T00:00:01").data) := by
  decide

/-- C9 (amended): an unhyphenated "lab grown" in the text yields the
hyphenation error only when "lab-grown" does not also occur verbatim in
the text (the code suppresses the error in that case — see the
counterexample). -/
theorem claim_C9 (values : List PyJson) (now : List Char)
    (hocc : occursIn (("lab grown").data) (pyLower (allText values)) = true)
    (hnot : occursIn (("lab-grown").data) (allText values) = false) :
    labViolation ∈ (check_brand_guidelines values now).issues ∧
    labViolation.severity = ("error").data ∧
    labViolation.suggestion = ("Use ").data ++ apos :: (("lab-grown").data ++ [apos]) := by
  refine ⟨?_, rfl, rfl⟩
  rw [check_issues_eq]
  apply List.mem_append.2
  right
  rw [if_pos (by rw [hocc, hnot]; rfl)]
  exact List.mem_singleton.2 rfl

/-- C9 witness: the amended theorem at a concrete text containing
"lab grown" but not "lab-grown". -/
theorem claim_C9_witness :
    labViolation ∈ (check_brand_guidelines
      [PyJson.str ("We love lab grown diamonds").data] []).issues :=
  (claim_C9 [PyJson.str ("We love lab grown diamonds").data] [] (by decide) (by decide)).1

/-- C9 counterexample: a text containing the unhyphenated "lab grown"
produces no error at all when "lab-grown" also occurs, refuting the
unconditional claim. -/
theorem claim_C9_counterexample :
    (check_brand_guidelines [PyJson.str ("lab grown vs lab-grown").data] []).issues = [] ∧
    occursIn (("lab grown").data)
      (pyLower (allText [PyJson.str ("lab grown vs lab-grown").data])) = true := by
  decide

/-! ### The seen store: claim support -/

theorem urlunsplit_ne_nil {scheme netloc url query : List Char} (hs : scheme ≠ []) :
    urlunsplit scheme netloc url query [] ≠ [] := by
  rw [urlunsplit_forms scheme netloc url query hs]
  cases scheme with
  | nil => exact absurd rfl hs
  | cons c cs => simp

theorem normalize_url_ne_nil {s : List Char} (h : s ≠ []) : normalize_url s ≠ [] := by
  unfold normalize_url
  rw [if_neg h]
  cases hp : urlparseE (pyStrip s) with
  | error e =>
    show pyStrip s ≠ []
    intro he
    rw [he] at hp
    have hok : urlparseE ([] : List Char) = Except.ok ⟨[], [], [], [], [], []⟩ := rfl
    rw [hok] at hp
    exact Except.noConfusion hp
  | ok p =>
    show normalizeFromParts p ≠ []
    unfold normalizeFromParts
    rw [urlunparse_recombine]
    apply urlunsplit_ne_nil
    intro he
    rw [pyLower_eq_nil_iff] at he
    by_cases hps : p.scheme = []
    · rw [if_pos hps] at he
      exact absurd he (by decide)
    · rw [if_neg hps] at he
      exact hps he

theorem natDigitsRepr_ne_nil (n : Nat) : natDigitsRepr n ≠ [] := by
  unfold natDigitsRepr
  by_cases h : n < 10
  · rw [if_pos h]
    simp
  · rw [if_neg h]
    simp

theorem pyReprJson_ne_nil (j : PyJson) : pyReprJson j ≠ [] := by
  cases j with
  | str s => simp [pyReprJson]
  | num n =>
    show pyIntRepr n ≠ []
    unfold pyIntRepr
    by_cases h : n < 0
    · rw [if_pos h]
      simp
    · rw [if_neg h]
      exact natDigitsRepr_ne_nil _
  | bool b => cases b <;> simp [pyReprJson]
  | null => simp [pyReprJson]
  | list xs => simp [pyReprJson]
  | dict kvs => simp [pyReprJson]

theorem pyStr_truthy_ne_nil {j : PyJson} (h : pyTruthy j = true) : pyStr j ≠ [] := by
  cases j with
  | str s =>
    show s ≠ []
    simp [pyTruthy] at h
    intro he
    rw [he] at h
    exact absurd h (by decide)
  | num n => exact pyReprJson_ne_nil _
  | bool b => exact pyReprJson_ne_nil _
  | null => exact pyReprJson_ne_nil _
  | list xs => exact pyReprJson_ne_nil _
  | dict kvs => exact pyReprJson_ne_nil _

theorem saveSeenDedup_nil (seen : List (List Char)) : saveSeenDedup seen [] = [] := rfl

theorem saveSeenDedup_cons_pos {seen : List (List Char)} {u : List Char}
    (us : List (List Char)) (h : normalize_url u ≠ [] ∧ normalize_url u ∉ seen) :
    saveSeenDedup seen (u :: us) =
      normalize_url u :: saveSeenDedup (normalize_url u :: seen) us := by
  simp only [saveSeenDedup]
  rw [if_pos h]

theorem saveSeenDedup_cons_neg {seen : List (List Char)} {u : List Char}
    (us : List (List Char)) (h : ¬(normalize_url u ≠ [] ∧ normalize_url u ∉ seen)) :
    saveSeenDedup seen (u :: us) = saveSeenDedup seen us := by
  simp only [saveSeenDedup]
  rw [if_neg h]

theorem saveSeenDedup_mem {x : List Char} : ∀ (us seen : List (List Char)),
    x ∈ saveSeenDedup seen us → x ≠ [] ∧ ∃ u ∈ us, x = normalize_url u := by
  intro us
  induction us with
  | nil =>
    intro seen h
    simp [saveSeenDedup] at h
  | cons u us ih =>
    intro seen h
    by_cases hc : normalize_url u ≠ [] ∧ normalize_url u ∉ seen
    · rw [saveSeenDedup_cons_pos us hc] at h
      rcases List.mem_cons.1 h with rfl | h2
      · exact ⟨hc.1, u, by simp, rfl⟩
      · obtain ⟨hne, v, hv, he⟩ := ih _ h2
        exact ⟨hne, v, by simp [hv], he⟩
    · rw [saveSeenDedup_cons_neg us hc] at h
      obtain ⟨hne, v, hv, he⟩ := ih _ h
      exact ⟨hne, v, by simp [hv], he⟩

/-- What a save-then-load round trip returns: the saved list with every
entry re-normalized by load; equal to the saved list whenever
normalization is idempotent on each input. -/
theorem load_saveStore (urls : List (List Char))
    (h : ∀ u ∈ urls, normalize_url (normalize_url u) = normalize_url u) :
    load_seen (saveStore urls) = save_seen_list urls := by
  show ((((save_seen_list urls).map PyJson.str).filter pyTruthy).map
      (fun x => normalize_url (pyStr x))) = save_seen_list urls
  have hfil : (((save_seen_list urls).map PyJson.str).filter pyTruthy) =
      (save_seen_list urls).map PyJson.str := by
    apply List.filter_eq_self.2
    intro a ha
    obtain ⟨s, hs, rfl⟩ := List.mem_map.1 ha
    have hne := (saveSeenDedup_mem _ _ hs).1
    show (!s.isEmpty) = true
    simp [hne]
  rw [hfil, List.map_map]
  have hpt : ∀ s ∈ save_seen_list urls,
      ((fun x => normalize_url (pyStr x)) ∘ PyJson.str) s = id s := by
    intro s hs
    obtain ⟨hne, u, hu, rfl⟩ := saveSeenDedup_mem _ _ hs
    show normalize_url (normalize_url u) = normalize_url u
    exact h u hu
  rw [List.map_congr_left hpt, List.map_id]

/-- C3 (amended): normalize_url is idempotent on every input whose
normalized form is strip-fixed and which does not hit the
empty-netloc/'//'-path collapse; the counterexample shows both escapes
are real. -/
theorem claim_C3 (u : List Char)
    (h1 : pyStrip (normalize_url u) = normalize_url u)
    (h2 : collapsesDoubleSlash u = false) :
    normalize_url (normalize_url u) = normalize_url u :=
  normalize_url_idem u h1 h2

/-- C3 witness: idempotence at a concrete URL. -/
theorem claim_C3_witness :
    normalize_url (normalize_url (("http://Example.com/Path").data)) =
      normalize_url (("http://Example.com/Path").data) :=
  claim_C3 (("http://Example.com/Path").data) (by decide) (by decide)

/-- C3 counterexample: normalization is not idempotent — on "a #b" the
first pass yields "https:///a " (trailing blank kept because the
fragment is dropped after parsing) and the second strips it; on
"https:////x" the first pass yields "https://x" and the second
"https://x/" (the empty-netloc '//'-path collapse). -/
theorem claim_C3_counterexample :
    normalize_url (normalize_url (("a #b").data)) ≠ normalize_url (("a #b").data) ∧
    normalize_url (normalize_url (("https:////x").data)) ≠
      normalize_url (("https:////x").data) := by
  decide

/-- C4 (amended): seen_store's sanitizer keeps only alphanumerics,
underscore and hyphen, but the url_tracking duplicate interpolates the
raw category into the file name (see the counterexample). -/
theorem claim_C4 (sect : List Char) :
    ∀ c ∈ sanitizeSection sect, (pyIsAlnumChar c || c = '_' || c = '-') = true := by
  intro c hm
  unfold sanitizeSection at hm
  exact (List.mem_filter.1 hm).2

/-- C4 witness: the sanitizer guarantee at a concrete category. -/
theorem claim_C4_witness : (pyIsAlnumChar 'n' || 'n' = '_' || 'n' = '-') = true :=
  claim_C4 (("News!").data) 'n' (by decide)

/-- C4 counterexample: url_tracking's file name for a traversal-shaped
category keeps the '/' characters, while seen_store's does not. -/
theorem claim_C4_counterexample :
    '/' ∈ utSeenFileName (("../../etc/passwd").data) ∧
    '/' ∉ seenFileName (("../../etc/passwd").data) := by
  decide

/-- C5 (amended): save-then-load returns exactly the deduplicated
normalized list whenever normalization is idempotent on every input;
without that proviso load re-normalizes each entry and can change it
(see the counterexample). -/
theorem claim_C5 (urls : List (List Char))
    (h : ∀ u ∈ urls, normalize_url (normalize_url u) = normalize_url u) :
    load_seen (saveStore urls) = save_seen_list urls :=
  load_saveStore urls h

/-- C5 witness: the round trip at a concrete pair of URLs. -/
theorem claim_C5_witness :
    load_seen (saveStore [("http://A.com/x").data, ("b").data]) =
      save_seen_list [("http://A.com/x").data, ("b").data] :=
  claim_C5 [("http://A.com/x").data, ("b").data] (by decide)

/-- C5 counterexample: for urls = ["a #b"] the loaded list differs from
the saved one, because load re-normalizes and normalization is not
idempotent there. -/
theorem claim_C5_counterexample :
    load_seen (saveStore [("a #b").data]) ≠ save_seen_list [("a #b").data] := by
  decide

/-- C8: load is fail-open — a missing file, an unreadable or unparseable
file, and a parsed value that is not a list all load as the empty list,
never an error. -/
theorem claim_C8 (j : PyJson) :
    load_seen StoredState.missing = [] ∧
    load_seen StoredState.unreadable = [] ∧
    ((∀ xs, j ≠ PyJson.list xs) → load_seen (StoredState.value j) = []) := by
  refine ⟨rfl, rfl, ?_⟩
  intro hj
  cases j with
  | str s => rfl
  | num n => rfl
  | bool b => rfl
  | null => rfl
  | list xs => exact absurd rfl (hj xs)
  | dict kvs => rfl

/-- C8 witness: a malformed (non-list) persisted value loads as empty. -/
theorem claim_C8_witness : load_seen (StoredState.value PyJson.null) = [] :=
  (claim_C8 PyJson.null).2.2 (fun xs h => PyJson.noConfusion h)

/-- C10: no stored or returned collection holds an empty string — every
element load returns is nonempty, and save keeps only nonempty
normalized urls. -/
theorem claim_C10 (st : StoredState) (urls : List (List Char)) :
    (∀ x ∈ load_seen st, x ≠ []) ∧ (∀ x ∈ save_seen_list urls, x ≠ []) := by
  constructor
  · intro x hm
    cases st with
    | missing => simp [load_seen] at hm
    | unreadable => simp [load_seen] at hm
    | value j =>
      cases j with
      | list xs =>
        simp only [load_seen] at hm
        obtain ⟨y, hy, rfl⟩ := List.mem_map.1 hm
        have hty : pyTruthy y = true := (List.mem_filter.1 hy).2
        exact normalize_url_ne_nil (pyStr_truthy_ne_nil hty)
      | str s => simp [load_seen] at hm
      | num n => simp [load_seen] at hm
      | bool b => simp [load_seen] at hm
      | null => simp [load_seen] at hm
      | dict kvs => simp [load_seen] at hm
  · intro x hm
    exact (saveSeenDedup_mem _ _ hm).1

/-- C10 witness: the invariant at a concrete loaded element and a
concrete saved element. -/
theorem claim_C10_witness :
    normalize_url (("http://A.com/x").data) ≠ [] ∧
    normalize_url (("b").data) ≠ [] :=
  ⟨(claim_C10 (StoredState.value (PyJson.list [PyJson.str (("http://A.com/x").data)])) []).1
      (normalize_url (("http://A.com/x").data)) (by decide),
   (claim_C10 StoredState.missing [("b").data]).2
      (normalize_url (("b").data)) (by decide)⟩

/-- C6: append is save of the new urls in front of the previously
loaded list, and in the concrete scenario (two distinct URLs with
nonempty, idempotently-normalized forms) the most recent URL surfaces
first and a re-submitted URL appears only once. -/
theorem claim_C6 (u1 u2 : List Char)
    (h1 : normalize_url u1 ≠ [])
    (h2 : normalize_url u2 ≠ [])
    (hne : normalize_url u1 ≠ normalize_url u2)
    (hi1 : normalize_url (normalize_url u1) = normalize_url u1)
    (hi2 : normalize_url (normalize_url u2) = normalize_url u2) :
    (∀ (st : StoredState) (new_urls : List (List Char)),
      append_seen st new_urls = saveStore (new_urls ++ load_seen st)) ∧
    load_seen (append_seen (append_seen StoredState.missing [u1]) [u2]) =
      [normalize_url u2, normalize_url u1] ∧
    load_seen (append_seen (append_seen (append_seen StoredState.missing [u1]) [u2]) [u1]) =
      [normalize_url u1, normalize_url u2] := by
  have hidem1 : normalize_url (normalize_url (normalize_url u1)) =
      normalize_url (normalize_url u1) := by
    rw [hi1]
    exact hi1
  have hidem2 : normalize_url (normalize_url (normalize_url u2)) =
      normalize_url (normalize_url u2) := by
    rw [hi2]
    exact hi2
  have hs1 : save_seen_list [u1] = [normalize_url u1] := by
    show saveSeenDedup [] [u1] = _
    rw [saveSeenDedup_cons_pos [] ⟨h1, by simp⟩, saveSeenDedup_nil]
  have hA1 : append_seen StoredState.missing [u1] = saveStore [u1] := rfl
  have hL1 : load_seen (saveStore [u1]) = [normalize_url u1] := by
    rw [load_saveStore [u1] (by
      intro u hu
      rw [List.mem_singleton] at hu
      subst hu
      exact hi1), hs1]
  have hA2 : append_seen (saveStore [u1]) [u2] = saveStore [u2, normalize_url u1] := by
    show saveStore ([u2] ++ load_seen (saveStore [u1])) = _
    rw [hL1]
    rfl
  have hs2 : save_seen_list [u2, normalize_url u1] =
      [normalize_url u2, normalize_url u1] := by
    show saveSeenDedup [] [u2, normalize_url u1] = _
    rw [saveSeenDedup_cons_pos _ ⟨h2, by simp⟩,
      saveSeenDedup_cons_pos _ ⟨by rw [hi1]; exact h1, by
        rw [hi1]
        intro hm
        rw [List.mem_singleton] at hm
        exact hne hm⟩,
      saveSeenDedup_nil, hi1]
  have hmem2 : ∀ u ∈ [u2, normalize_url u1],
      normalize_url (normalize_url u) = normalize_url u := by
    intro u hu
    rcases List.mem_cons.1 hu with rfl | hu
    · exact hi2
    · rw [List.mem_singleton] at hu
      subst hu
      exact hidem1
  have hL2 : load_seen (saveStore [u2, normalize_url u1]) =
      [normalize_url u2, normalize_url u1] := by
    rw [load_saveStore _ hmem2, hs2]
  refine ⟨fun st new_urls => rfl, hA1 ▸ hA2 ▸ hL2, ?_⟩
  have hA3 : append_seen (saveStore [u2, normalize_url u1]) [u1] =
      saveStore [u1, normalize_url u2, normalize_url u1] := by
    show saveStore ([u1] ++ load_seen (saveStore [u2, normalize_url u1])) = _
    rw [hL2]
    rfl
  have hs3 : save_seen_list [u1, normalize_url u2, normalize_url u1] =
      [normalize_url u1, normalize_url u2] := by
    show saveSeenDedup [] [u1, normalize_url u2, normalize_url u1] = _
    rw [saveSeenDedup_cons_pos _ ⟨h1, by simp⟩,
      saveSeenDedup_cons_pos _ ⟨by rw [hi2]; exact h2, by
        rw [hi2]
        intro hm
        rw [List.mem_singleton] at hm
        exact hne hm.symm⟩,
      saveSeenDedup_cons_neg _ (by
        rw [hi1]
        intro hand
        exact hand.2 (by simp)),
      saveSeenDedup_nil, hi2]
  have hmem3 : ∀ u ∈ [u1, normalize_url u2, normalize_url u1],
      normalize_url (normalize_url u) = normalize_url u := by
    intro u hu
    rcases List.mem_cons.1 hu with rfl | hu
    · exact hi1
    rcases List.mem_cons.1 hu with rfl | hu
    · exact hidem2
    · rw [List.mem_singleton] at hu
      subst hu
      exact hidem1
  have hL3 : load_seen (saveStore [u1, normalize_url u2, normalize_url u1]) =
      [normalize_url u1, normalize_url u2] := by
    rw [load_saveStore _ hmem3, hs3]
  rw [hA1, hA2, hA3]
  exact hL3

/-- C6 witness: the scenario at two concrete distinct URLs. -/
theorem claim_C6_witness :
    load_seen (append_seen (append_seen StoredState.missing [("http://a.com/1").data])
        [("http://a.com/2").data]) =
      [normalize_url (("http://a.com/2").data), normalize_url (("http://a.com/1").data)] :=
  (claim_C6 (("http://a.com/1").data) (("http://a.com/2").data)
    (by decide) (by decide) (by decide) (by decide) (by decide)).2.1

end VenueVoice
